import Mathlib

/-!
Verification of the inktvis text-normalization pipeline.

The development shallowly embeds the three core modules of the repository
(`header_stripper.py`, `structure_parser.py` and the output-sanitizing helpers
of `ocr_cloud.py`) over `List Char` (one Lean `List Char` per Python `str`),
and proves the behavioural properties stated about them.

Modelling conventions, shared by the whole file:
* a Python string is a `List Char`; `str.split("\n")` is `splitNl`,
  `"\n".join` is `joinNl`;
* `str.strip()` is `pyStrip`, with the whitespace set of CPython
  (ASCII whitespace, the extra control characters, NEL, NBSP and the
  Unicode space separators);
* `str.lower()` is `Char.toLower` applied pointwise (ASCII case folding;
  every claim treated here is insensitive to the difference on
  non-ASCII letters because the same normalization is applied on both
  sides of each comparison);
* `re.sub` instances are embedded as structurally recursive functions,
  each documented next to its definition with the original pattern.
-/

namespace Inktvis

/-- A Python string, modelled as its list of characters. -/
abbrev Str := List Char

/-- Membership in the whitespace set used by CPython's `str.strip` and
`str.split` (`Py_UNICODE_ISSPACE`). -/
def isPyWs (c : Char) : Bool :=
  c = ' ' ∨ c = '\t' ∨ c = '\n' ∨ c = '\r' ∨ c = '\x0b' ∨ c = '\x0c' ∨
  c = '\x1c' ∨ c = '\x1d' ∨ c = '\x1e' ∨ c = '\x1f' ∨ c = '\x85' ∨
  c = '\xa0' ∨ c = ' ' ∨ (0x2000 ≤ c.toNat ∧ c.toNat ≤ 0x200a) ∨
  c = ' ' ∨ c = ' ' ∨ c = ' ' ∨ c = ' ' ∨ c = '　'

/-- Python `s.strip()`: drop leading and trailing whitespace. -/
def pyStrip (s : Str) : Str :=
  ((s.dropWhile isPyWs).reverse.dropWhile isPyWs).reverse

/-- Helper of `pySplit`: accumulates the current word (reversed) while
scanning the string. -/
def pySplitAux : Str → Str → List Str
  | [], acc => if acc.isEmpty then [] else [acc.reverse]
  | c :: cs, acc =>
    if isPyWs c then
      if acc.isEmpty then pySplitAux cs [] else acc.reverse :: pySplitAux cs []
    else pySplitAux cs (c :: acc)

/-- Python `s.split()` (no argument): split on whitespace runs, dropping
empty fields. -/
def pySplit (s : Str) : List Str :=
  pySplitAux s []

/-- Python `"\n".split`-style splitting on the newline character:
`s.split("\n")`.  The result is always non-empty; splitting the empty
string yields `[[]]`, as in Python. -/
def splitNl : Str → List Str
  | [] => [[]]
  | c :: cs =>
    if c = '\n' then [] :: splitNl cs
    else
      match splitNl cs with
      | [] => [[c]]
      | l :: ls => (c :: l) :: ls

/-- Python `"\n".join(ls)`. -/
def joinNl : List Str → Str
  | [] => []
  | [l] => l
  | l :: ls => l ++ '\n' :: joinNl ls

/-- Python `" ".join(ls)`. -/
def joinSpace : List Str → Str
  | [] => []
  | [l] => l
  | l :: ls => l ++ ' ' :: joinSpace ls

/-! ### Collapsing runs of a repeated character

`collapseRuns c` embeds Python's `re.sub(r"C{4,}", "CCC", s)` for a single
character `C`: every maximal run of four or more copies of `c` is replaced
by exactly three copies, everything else is copied verbatim.  It is used
with `c = '\n'` for the blank-line collapse of `parse_structure` and with
`c ∈ {'-', '=', '_'}` for `_collapse_runaway_lines`. -/

/-- Emit a pending run of `n` copies of `c`, shortening it to three when it
has length at least four. -/
def emitRun (c : Char) (n : Nat) : Str :=
  if 4 ≤ n then List.replicate 3 c else List.replicate n c

/-- Scanner for `collapseRuns`; `n` counts the pending copies of `c` seen
immediately before the current position. -/
def collapseRunsAux (c : Char) : Str → Nat → Str
  | [], n => emitRun c n
  | d :: ds, n =>
    if d = c then collapseRunsAux c ds (n + 1)
    else emitRun c n ++ d :: collapseRunsAux c ds 0

/-- Python `re.sub(r"C{4,}", "CCC", s)` for the single character `C = c`. -/
def collapseRuns (c : Char) (s : Str) : Str :=
  collapseRunsAux c s 0

/-- Decides that, starting with `n` pending copies of `c`, every maximal
run of `c` in `s` (the pending ones included) has length at most three. -/
def runsOK (c : Char) : Str → Nat → Bool
  | [], n => n ≤ 3
  | d :: ds, n =>
    if d = c then runsOK c ds (n + 1)
    else decide (n ≤ 3) && runsOK c ds 0

/-! ### Header stripper (`src/inktvis/header_stripper.py`)

`strip_headers` removes lines repeating at fixed probe offsets (first two or
last two lines) across at least `min_consecutive` consecutive pages.  The
embedding mirrors the Python loop of `_find_repeating_lines` exactly: the
mutable `(run_start, run_text)` pair becomes explicit state of the tail
recursion `goPass`, and the `removals` dict of sets becomes a list of
`(page index, line index)` pairs (only membership in it is ever consumed). -/

/-- Probe position: the first lines of a page (`"top"`) or the last
(`"bottom"`). -/
inductive Pos where
  | top
  | bottom
deriving DecidableEq

/-- Python `" ".join(current.lower().split())` — case folding plus collapse
of internal whitespace (the input is the already stripped probed line). -/
def normWs (current : Str) : Str :=
  joinSpace (pySplit (current.map Char.toLower))

/-- The probed line index for a page of `nLines` lines, as the Python code
computes it (`line_offset` from the top, `len(lines) - 1 - line_offset` from
the bottom); it can be negative for short pages in bottom mode. -/
def targetIdx (pos : Pos) (off : Nat) (nLines : Nat) : Int :=
  match pos with
  | Pos.top => off
  | Pos.bottom => (nLines : Int) - 1 - off

/-- Lines of page `i` (pages out of range give the empty page, never reached
on the call paths used below). -/
def pageLines (pages : List Str) (i : Nat) : List Str :=
  splitNl (pages.getD i [])

/-- The normalized probed value of page `i` at `(pos, off)`: `none` when the
offset is out of range for that page or the probed line is blank after
stripping, otherwise the normalized line.  This packages the two
run-breaking branches of the Python loop body. -/
def probeNorm (pages : List Str) (pos : Pos) (off : Nat) (i : Nat) :
    Option Str :=
  let lines := pageLines pages i
  let idx := targetIdx pos off lines.length
  if idx < 0 ∨ (lines.length : Int) ≤ idx then none
  else
    let current := pyStrip (lines.getD idx.toNat [])
    if current = [] then none else some (normWs current)

/-- Closing a run spanning pages `[s, e)`: for each page of the run whose
recomputed target index is a valid line index, record the removal, exactly
as the three copies of the closing loop in `_find_repeating_lines` do. -/
def closeRun (pages : List Str) (pos : Pos) (off : Nat) (s e : Nat) :
    List (Nat × Nat) :=
  (List.range' s (e - s)).filterMap fun j =>
    let n := (pageLines pages j).length
    let t := targetIdx pos off n
    if 0 ≤ t ∧ t < (n : Int) then some (j, t.toNat) else none

/-- The per-offset scanning loop of `_find_repeating_lines`.  `fuel` is the
number of pages still to visit (`pages.length - i`); when it reaches zero the
final open run is closed against `pages.length`, mirroring the epilogue of
the Python loop. -/
def goPass (pages : List Str) (pos : Pos) (off minc : Nat) :
    Nat → Nat → Nat → Option Str → List (Nat × Nat)
  | 0, _, runStart, runText =>
    if runText.isSome ∧ minc ≤ pages.length - runStart then
      closeRun pages pos off runStart pages.length
    else []
  | fuel + 1, i, runStart, runText =>
    match probeNorm pages pos off i, runText with
    | none, none => goPass pages pos off minc fuel (i + 1) runStart none
    | none, some _ =>
      (if minc ≤ i - runStart then closeRun pages pos off runStart i else []) ++
        goPass pages pos off minc fuel (i + 1) runStart none
    | some v, none => goPass pages pos off minc fuel (i + 1) i (some v)
    | some v, some rt =>
      if v = rt then goPass pages pos off minc fuel (i + 1) runStart (some rt)
      else
        (if minc ≤ i - runStart then closeRun pages pos off runStart i else []) ++
          goPass pages pos off minc fuel (i + 1) i (some v)

/-- One full scan of the page sequence at a fixed `(pos, off)`. -/
def passPairs (pages : List Str) (pos : Pos) (off minc : Nat) :
    List (Nat × Nat) :=
  goPass pages pos off minc pages.length 0 0 none

/-- Python `_find_repeating_lines(pages, position, min_consecutive,
check_lines)`: the removals accumulated over `line_offset in
range(check_lines)`, as (page, line) pairs. -/
def findRepeatingPairs (pages : List Str) (pos : Pos) (minc : Nat)
    (checkLines : Nat := 2) : List (Nat × Nat) :=
  (List.range checkLines).flatMap fun off => passPairs pages pos off minc

/-- The removal set of page `i` (Python `removals.get(i, set())`), read off
the pair list. -/
def pageRemovals (pairs : List (Nat × Nat)) (i : Nat) : List Nat :=
  pairs.filterMap fun p => if p.1 = i then some p.2 else none

/-- Python `_remove_lines(lines, header_indices, footer_indices)`: keep the
lines whose index is in neither set. -/
def removeLines (lines : List Str) (hdrIdx ftrIdx : List Nat) : List Str :=
  (lines.enum.filter fun p => decide (¬ (p.1 ∈ hdrIdx ∨ p.1 ∈ ftrIdx))).map
    Prod.snd

/-- Python `strip_headers(pages, min_consecutive)`. -/
def strip_headers (pages : List Str) (minc : Nat := 3) : List Str :=
  if pages.length < minc then pages
  else
    let hdr := findRepeatingPairs pages Pos.top minc 2
    let ftr := findRepeatingPairs pages Pos.bottom minc 2
    (List.range pages.length).map fun i =>
      pyStrip (joinNl (removeLines (pageLines pages i)
        (pageRemovals hdr i) (pageRemovals ftr i)))

/-! ### Structure inferencer (`src/inktvis/structure_parser.py`)

The three `SECTION_PATTERNS` are multiline, line-anchored (`^ ... $`) and
contain no construct able to cross a newline, so a regex match is always a
whole line and `pattern.sub` is a per-line rewrite: split on newline, rewrite
each line, rejoin.  Greedy `\d+` is a maximal digit run (a shorter match
would put a digit where `.` or `[ \t]` is required, so backtracking never
helps), `[ \t]+` is a maximal space/tab run except that `(.+)$` keeps at
least one character — when the whole rest of the line is spaces/tabs the
title group degenerates to the final such character. -/

/-- Greedy parse of `\d+(\.\d+){groups-1}` at the start of a line: returns
the matched number (with its dots) and the rest of the line. -/
def parseNumGroups : Nat → Str → Option (Str × Str)
  | 0, _ => none
  | 1, l =>
    let ds := l.takeWhile Char.isDigit
    if ds = [] then none else some (ds, l.dropWhile Char.isDigit)
  | n + 2, l =>
    let ds := l.takeWhile Char.isDigit
    if ds = [] then none
    else
      match l.dropWhile Char.isDigit with
      | '.' :: r2 =>
        (parseNumGroups (n + 1) r2).map fun p => (ds ++ '.' :: p.1, p.2)
      | _ => none

/-- Space or tab, the characters of the `[ \t]` class. -/
def isSpaceTab (c : Char) : Bool :=
  c = ' ' ∨ c = '\t'

/-- Whether the rest of the line after the number matches `[ \t]+(.+)$`:
it must start with a space or tab and keep at least one more character. -/
def restOK (r : Str) : Bool :=
  decide (2 ≤ r.length) &&
    match r with
    | c :: _ => isSpaceTab c
    | [] => false

/-- The `(.+)` group captured after `[ \t]+`: the rest with its maximal
space/tab run removed, except that when nothing would remain the greedy
`[ \t]+` gives one character back and the group is that last character. -/
def group2OfRest (r : Str) : Str :=
  match r.dropWhile isSpaceTab with
  | [] =>
    match r.getLast? with
    | some c => [c]
    | none => []
  | t => t

/-- The `[A-ZÀ-ɏ]` class of the chapter pattern: ASCII uppercase
(U+0041–U+005A) or any character in U+00C0–U+024F (note that this second
block contains the accented Latin lowercase letters as well). -/
def isUpperLat (c : Char) : Bool :=
  (0x41 ≤ c.toNat ∧ c.toNat ≤ 0x5A) ∨ (0xC0 ≤ c.toNat ∧ c.toNat ≤ 0x24F)

/-- Python `"**"`-removal, `title.replace("**", "")`: leftmost
non-overlapping occurrences. -/
def removeBoldMarks : Str → Str
  | [] => []
  | [c] => [c]
  | c1 :: c2 :: rest =>
    if c1 = '*' ∧ c2 = '*' then removeBoldMarks rest
    else c1 :: removeBoldMarks (c2 :: rest)

/-- Python `_make_heading`: `f"{'#' * level} {number} {title}"` with the
title stripped and its bold markers removed. -/
def make_heading (level : Nat) (number title : Str) : Str :=
  List.replicate level '#' ++ ' ' :: number ++ ' ' ::
    removeBoldMarks (pyStrip title)

/-- Per-line action of the two dotted patterns
(`^(\d+\.\d+\.\d+)[ \t]+(.+)$` with `groups = 3`, `level = 4` and
`^(\d+\.\d+)[ \t]+(.+)$` with `groups = 2`, `level = 3`). -/
def dottedLineStep (groups level : Nat) (l : Str) : Str :=
  match parseNumGroups groups l with
  | some (num, r) => if restOK r then make_heading level num (group2OfRest r) else l
  | none => l

/-- Per-line action of the subsection pattern (H4). -/
def subLineStep (l : Str) : Str :=
  dottedLineStep 3 4 l

/-- Per-line action of the section pattern (H3). -/
def secLineStep (l : Str) : Str :=
  dottedLineStep 2 3 l

/-- Per-line action of the chapter pattern
`^(\d+)[ \t]+([A-ZÀ-ɏ].{2,})$` (H2). -/
def chapLineStep (l : Str) : Str :=
  match parseNumGroups 1 l with
  | some (num, r) =>
    match r with
    | c :: _ =>
      if isSpaceTab c then
        match r.dropWhile isSpaceTab with
        | t :: ts =>
          if isUpperLat t ∧ 3 ≤ (t :: ts).length then
            make_heading 2 num (t :: ts)
          else l
        | [] => l
      else l
    | [] => l
  | none => l

/-- A multiline `pattern.sub` whose matches are whole lines: rewrite every
line. -/
def applyPattern (step : Str → Str) (t : Str) : Str :=
  joinNl ((splitNl t).map step)

/-- Python `parse_structure`: the three ordered heading passes followed by
`re.sub(r"\n{4,}", "\n\n\n", text)`. -/
def parse_structure (t : Str) : Str :=
  collapseRuns '\n'
    (applyPattern chapLineStep (applyPattern secLineStep (applyPattern subLineStep t)))

/-! ### Output sanitizer (`src/inktvis/ocr_cloud.py`)

The three pure helpers applied to the model output: `_strip_code_fences`,
`_collapse_runaway_lines` and `_extract_page_number`. -/

/-- Python `_strip_code_fences`: strip, drop a leading ```` ```markdown ````
or else a bare ```` ``` ````, drop a trailing ```` ``` ````, strip again. -/
def strip_code_fences (t : Str) : Str :=
  let s := pyStrip t
  let s1 :=
    if List.isPrefixOf ("```markdown".data) s then s.drop 11
    else if List.isPrefixOf ("```".data) s then s.drop 3
    else s
  let s2 :=
    if List.isSuffixOf ("```".data) s1 then s1.take (s1.length - 3)
    else s1
  pyStrip s2

/-- The per-line repair of `_collapse_runaway_lines`: on lines longer than
500 characters, collapse runs of four or more `-`, `=`, `_` (in that order
of `re.sub` calls) down to three. -/
def runawayLineStep (line : Str) : Str :=
  if 500 < line.length then
    collapseRuns '_' (collapseRuns '=' (collapseRuns '-' line))
  else line

/-- Python `_collapse_runaway_lines`. -/
def collapse_runaway_lines (t : Str) : Str :=
  joinNl ((splitNl t).map runawayLineStep)

/-- Decimal value of a digit string (Python `int`, restricted to the
all-digit strings the marker pattern accepts). -/
def digitsToNat (ds : Str) : Nat :=
  ds.foldl (fun n c => n * 10 + (c.toNat - 48)) 0

/-- The anchored marker pattern `^\[page:(\d+|none)\]$` with `IGNORECASE`:
`none` = no match, `some none` = the token was `none`, `some (some k)` = the
token was the digit string of `k`. -/
def matchMarker (l : Str) : Option (Option Nat) :=
  match l with
  | '[' :: p :: a :: g :: e :: ':' :: rest =>
    if p.toLower = 'p' ∧ a.toLower = 'a' ∧ g.toLower = 'g' ∧ e.toLower = 'e' then
      match rest.getLast? with
      | some ']' =>
        let mid := rest.dropLast
        if mid ≠ [] ∧ mid.all Char.isDigit then some (some (digitsToNat mid))
        else if mid.map Char.toLower = "none".data then some none
        else none
      | _ => none
    else none
  | _ => none

/-- Python `_extract_page_number`: split off the first line, match the
stripped first line against the marker pattern; on a match return the
stripped remainder with the page number, otherwise the text unchanged. -/
def extract_page_number (t : Str) : Str × Option Nat :=
  let first := t.takeWhile (· != '\n')
  match matchMarker (pyStrip first) with
  | some v =>
    (if '\n' ∈ t then pyStrip ((t.dropWhile (· != '\n')).tail) else [], v)
  | none => (t, none)

/-! ### Claim C7: code-fence stripping -/

/-- The head of the string is absent or not whitespace. -/
def headNotWs (s : Str) : Bool :=
  match s.head? with
  | some c => ! isPyWs c
  | none => true

/-- The last character of the string is absent or not whitespace. -/
def lastNotWs (s : Str) : Bool :=
  match s.getLast? with
  | some c => ! isPyWs c
  | none => true

/-- The composite per-line action of the three ordered heading passes. -/
def lineStep (l : Str) : Str :=
  chapLineStep (secLineStep (subLineStep l))

/-! ### Claim C6: the chapter pattern -/

/-- The shape required of a line by the chapter pattern
`^(\d+)[ \t]+([A-ZÀ-ɏ].{2,})$`: a non-empty digit group, a non-empty run of
spaces/tabs, then a title whose first character is in the `[A-ZÀ-ɏ]` class
and which is at least three characters long. -/
def ChapterShape (l : Str) : Prop :=
  ∃ (d w : Str) (c : Char) (t : Str), l = d ++ w ++ c :: t ∧ d ≠ [] ∧
    (∀ x ∈ d, x.isDigit = true) ∧ w ≠ [] ∧ (∀ x ∈ w, isSpaceTab x = true) ∧
    isUpperLat c = true ∧ 2 ≤ t.length

/-- Line-level mirror of the blank-line collapse applied to `joinNl ls`:
`n` counts the pending newlines (separators of already emitted empty
lines). -/
def colJoin : List Str → Nat → Str
  | [], n => emitRun '\n' n
  | [l], n => if l = [] then emitRun '\n' n else emitRun '\n' n ++ l
  | l :: ls, n =>
    if l = [] then colJoin ls (n + 1)
    else emitRun '\n' n ++ l ++ colJoin ls 1

/-! ### Claims C1 and C2: run detection in `strip_headers`

`goPass` is characterized in both directions: every maximal (indeed, every)
interval of pages with a constant non-blank normalized probe of length at
least `min_consecutive` produces a removal for each of its pages
(completeness), and every recorded removal arises from such an interval
(soundness). -/

/-- The probed target index of page `j`, as an integer. -/
def tgtI (pages : List Str) (pos : Pos) (off : Nat) (j : Nat) : Int :=
  targetIdx pos off (pageLines pages j).length

/-- The probed target index is a valid line index of page `j`. -/
def validTgt (pages : List Str) (pos : Pos) (off : Nat) (j : Nat) : Prop :=
  0 ≤ tgtI pages pos off j ∧
    tgtI pages pos off j < ((pageLines pages j).length : Int)

instance (pages : List Str) (pos : Pos) (off j : Nat) :
    Decidable (validTgt pages pos off j) :=
  inferInstanceAs (Decidable (_ ∧ _))

/-- The probed target index as a natural number. -/
def tgtNat (pages : List Str) (pos : Pos) (off : Nat) (j : Nat) : Nat :=
  (tgtI pages pos off j).toNat

/-- The union of the header and footer removal sets of page `j`, exactly as
`strip_headers` consumes them. -/
def removedIndices (pages : List Str) (minc : Nat) (j : Nat) : List Nat :=
  pageRemovals (findRepeatingPairs pages Pos.top minc 2) j ++
    pageRemovals (findRepeatingPairs pages Pos.bottom minc 2) j

/-! ### Theorems -/

theorem splitNl_ne_nil (s : Str) : splitNl s ≠ [] := by
  induction s with
  | nil => simp [splitNl]
  | cons c cs ih =>
    by_cases h : c = '\n'
    · simp [splitNl, h]
    · simp only [splitNl, h, if_neg]
      cases hs : splitNl cs with
      | nil => simp
      | cons l ls => simp

theorem not_nl_of_mem_splitNl {s : Str} {l : Str} (hl : l ∈ splitNl s) :
    '\n' ∉ l := by
  induction s generalizing l with
  | nil => simp [splitNl] at hl; simp [hl]
  | cons c cs ih =>
    by_cases h : c = '\n'
    · simp [splitNl, h] at hl
      rcases hl with hl | hl
      · simp [hl]
      · exact ih hl
    · simp only [splitNl, h, if_neg] at hl
      cases hs : splitNl cs with
      | nil => exact absurd hs (splitNl_ne_nil cs)
      | cons l0 ls0 =>
        rw [hs] at hl
        rcases List.mem_cons.mp hl with hl | hl
        · subst hl
          intro hmem
          rcases List.mem_cons.mp hmem with hc | hc
          · exact h hc.symm
          · exact ih (hs ▸ List.mem_cons_self l0 ls0) hc
        · exact ih (hs ▸ List.mem_cons_of_mem l0 hl)

theorem joinNl_cons_of_ne_nil (l : Str) {ls : List Str} (h : ls ≠ []) :
    joinNl (l :: ls) = l ++ '\n' :: joinNl ls := by
  cases ls with
  | nil => exact absurd rfl h
  | cons a as => rfl

theorem joinNl_splitNl (s : Str) : joinNl (splitNl s) = s := by
  induction s with
  | nil => simp [splitNl, joinNl]
  | cons c cs ih =>
    by_cases h : c = '\n'
    · rw [splitNl, if_pos h, joinNl_cons_of_ne_nil _ (splitNl_ne_nil cs), ih, h]
      simp
    · rw [splitNl, if_neg h]
      cases hs : splitNl cs with
      | nil => exact absurd hs (splitNl_ne_nil cs)
      | cons l ls =>
        rw [hs] at ih
        cases ls with
        | nil => simpa [joinNl] using congrArg (c :: ·) ih
        | cons b bs =>
          rw [joinNl_cons_of_ne_nil (c :: l) (by simp)]
          rw [joinNl_cons_of_ne_nil l (by simp)] at ih
          simpa using congrArg (c :: ·) ih

theorem splitNl_of_not_nl {l : Str} (h : '\n' ∉ l) : splitNl l = [l] := by
  induction l with
  | nil => rfl
  | cons c cs ih =>
    have hc : ¬ c = '\n' := fun hc => h (hc ▸ List.mem_cons_self c cs)
    have hcs : '\n' ∉ cs := fun hm => h (List.mem_cons_of_mem c hm)
    rw [splitNl, if_neg hc, ih hcs]

theorem splitNl_append_nl {l : Str} (h : '\n' ∉ l) (rest : Str) :
    splitNl (l ++ '\n' :: rest) = l :: splitNl rest := by
  induction l with
  | nil => simp [splitNl]
  | cons c cs ih =>
    have hc : ¬ c = '\n' := fun hc => h (hc ▸ List.mem_cons_self c cs)
    have hcs : '\n' ∉ cs := fun hm => h (List.mem_cons_of_mem c hm)
    rw [List.cons_append, splitNl, if_neg hc, ih hcs]

theorem splitNl_joinNl {ls : List Str} (hnl : ∀ l ∈ ls, '\n' ∉ l)
    (hne : ls ≠ []) : splitNl (joinNl ls) = ls := by
  induction ls with
  | nil => exact absurd rfl hne
  | cons l ls ih =>
    cases ls with
    | nil =>
      simp only [joinNl]
      exact splitNl_of_not_nl (hnl l (List.mem_cons_self l []))
    | cons b bs =>
      rw [joinNl_cons_of_ne_nil _ (by simp),
        splitNl_append_nl (hnl l (List.mem_cons_self _ _)),
        ih (fun x hx => hnl x (List.mem_cons_of_mem l hx)) (by simp)]

theorem runsOK_le {c : Char} {s : Str} {n : Nat} (h : runsOK c s n) :
    n ≤ 3 := by
  induction s generalizing n with
  | nil => simpa [runsOK] using h
  | cons d ds ih =>
    by_cases hd : d = c
    · simp only [runsOK, if_pos hd] at h
      exact Nat.le_of_succ_le (ih h)
    · simp only [runsOK, if_neg hd, Bool.and_eq_true, decide_eq_true_eq] at h
      exact h.1

theorem collapseRunsAux_of_runsOK {c : Char} {s : Str} {n : Nat}
    (h : runsOK c s n) : collapseRunsAux c s n = List.replicate n c ++ s := by
  induction s generalizing n with
  | nil =>
    have hn : n ≤ 3 := runsOK_le h
    simp [collapseRunsAux, emitRun, Nat.not_le.mpr (Nat.lt_succ_of_le hn)]
  | cons d ds ih =>
    by_cases hd : d = c
    · simp only [runsOK, if_pos hd] at h
      rw [collapseRunsAux, if_pos hd, ih h, hd, List.replicate_succ' n c]
      simp
    · simp only [runsOK, if_neg hd, Bool.and_eq_true, decide_eq_true_eq] at h
      rw [collapseRunsAux, if_neg hd, ih h.2, emitRun,
        if_neg (Nat.not_le.mpr (Nat.lt_succ_of_le h.1))]
      simp

theorem collapseRuns_of_runsOK {c : Char} {s : Str} (h : runsOK c s 0) :
    collapseRuns c s = s := by
  simpa [collapseRuns] using collapseRunsAux_of_runsOK h

theorem runsOK_replicate_append {c : Char} (m : Nat) (y : Str) (k : Nat) :
    runsOK c (List.replicate m c ++ y) k = runsOK c y (k + m) := by
  induction m generalizing k with
  | zero => simp
  | succ m ih =>
    rw [List.replicate_succ, List.cons_append, runsOK, if_pos rfl, ih]
    congr 1
    omega

theorem emitRun_len_le (c : Char) (n : Nat) :
    ∃ m, emitRun c n = List.replicate m c ∧ m ≤ 3 := by
  by_cases h : 4 ≤ n
  · exact ⟨3, by simp [emitRun, h], le_refl 3⟩
  · exact ⟨n, by simp [emitRun, h], by omega⟩

theorem runsOK_collapseRunsAux (c : Char) (s : Str) (n : Nat) :
    runsOK c (collapseRunsAux c s n) 0 = true := by
  induction s generalizing n with
  | nil =>
    obtain ⟨m, hm, hm3⟩ := emitRun_len_le c n
    rw [collapseRunsAux, hm, ← List.append_nil (List.replicate m c),
      runsOK_replicate_append]
    simpa [runsOK] using hm3
  | cons d ds ih =>
    by_cases hd : d = c
    · rw [collapseRunsAux, if_pos hd]
      exact ih (n + 1)
    · obtain ⟨m, hm, hm3⟩ := emitRun_len_le c n
      rw [collapseRunsAux, if_neg hd, hm, runsOK_replicate_append, runsOK,
        if_neg hd]
      simp only [Bool.and_eq_true, decide_eq_true_eq]
      exact ⟨by omega, ih 0⟩

theorem collapseRuns_idem (c : Char) (s : Str) :
    collapseRuns c (collapseRuns c s) = collapseRuns c s :=
  collapseRuns_of_runsOK (runsOK_collapseRunsAux c s 0)

theorem collapseRunsAux_replicate_append (c : Char) (k : Nat) (b : Str)
    (m : Nat) :
    collapseRunsAux c (List.replicate k c ++ b) m = collapseRunsAux c b (m + k) := by
  induction k generalizing m with
  | zero => simp
  | succ k ih =>
    rw [List.replicate_succ, List.cons_append, collapseRunsAux, if_pos rfl, ih]
    congr 1
    omega

/-- Generalized form of the long-run collapse: with surrounding context free
of long runs and not touching the long run, a run of `k ≥ 4` copies of `c`
collapses to exactly three. -/
theorem collapseRunsAux_long_run {c : Char} {a b : Str} {k : Nat}
    (hk : 4 ≤ k) (ha_last : a.getLast? ≠ some c) (hb_head : b.head? ≠ some c)
    (hb : runsOK c b 0) :
    ∀ n, runsOK c a n → (a = [] → n = 0) →
      collapseRunsAux c (a ++ List.replicate k c ++ b) n =
        List.replicate n c ++ a ++ List.replicate 3 c ++ b := by
  induction a with
  | nil =>
    intro n _ hn0
    rw [hn0 rfl]
    simp only [List.nil_append, List.replicate_zero]
    rw [collapseRunsAux_replicate_append]
    cases b with
    | nil => simp [collapseRunsAux, emitRun, hk]
    | cons d ds =>
      have hd : ¬ d = c := by
        intro h
        exact hb_head (by simp [h])
      have hds : runsOK c ds 0 := by
        simpa [runsOK, if_neg hd] using hb
      rw [collapseRunsAux, if_neg hd, collapseRunsAux_of_runsOK hds]
      simp [emitRun, hk]
  | cons d a' ih =>
    intro n hOK _
    by_cases hd : d = c
    · subst hd
      have ha' : a' ≠ [] := by
        intro h
        subst h
        simp at ha_last
      have hlast' : a'.getLast? ≠ some d := by
        cases a' with
        | nil => exact absurd rfl ha'
        | cons x xs => rwa [List.getLast?_cons_cons] at ha_last
      have hOK' : runsOK d a' (n + 1) := by
        simpa [runsOK] using hOK
      rw [List.cons_append, List.cons_append, collapseRunsAux, if_pos rfl,
        ih hlast' (n + 1) hOK' (fun h => absurd h ha')]
      rw [List.replicate_succ' n d]
      simp
    · simp only [runsOK, if_neg hd, Bool.and_eq_true, decide_eq_true_eq] at hOK
      have hlast' : a'.getLast? ≠ some c := by
        cases a' with
        | nil => simp
        | cons x xs => rwa [List.getLast?_cons_cons] at ha_last
      rw [List.cons_append, List.cons_append, collapseRunsAux, if_neg hd,
        ih hlast' 0 hOK.2 (fun _ => rfl), emitRun,
        if_neg (Nat.not_le.mpr (Nat.lt_succ_of_le hOK.1))]
      simp

/-- Long-run collapse, in context: a maximal run of `k ≥ 4` copies of `c`
is rewritten to exactly three copies, with its surroundings untouched. -/
theorem collapseRuns_long_run {c : Char} {a b : Str} {k : Nat}
    (hk : 4 ≤ k) (ha_last : a.getLast? ≠ some c) (hb_head : b.head? ≠ some c)
    (ha : runsOK c a 0) (hb : runsOK c b 0) :
    collapseRuns c (a ++ List.replicate k c ++ b) =
      a ++ List.replicate 3 c ++ b := by
  simpa [collapseRuns] using
    collapseRunsAux_long_run hk ha_last hb_head hb 0 ha (fun _ => rfl)

theorem runsOK_of_not_mem {c : Char} {s : Str} (h : c ∉ s) :
    runsOK c s 0 = true := by
  induction s with
  | nil => simp [runsOK]
  | cons d ds ih =>
    have hd : ¬ d = c := fun hdc => h (hdc ▸ List.mem_cons_self d ds)
    rw [runsOK, if_neg hd]
    simpa using ih (fun hm => h (List.mem_cons_of_mem d hm))

/-! ### Shared lemmas about `pyStrip` and `runsOK` -/

theorem pyStrip_cons_of_ws {c : Char} (hc : isPyWs c = true) (x : Str) :
    pyStrip (c :: x) = pyStrip x := by
  simp [pyStrip, List.dropWhile_cons, hc]

theorem pyStrip_append_of_ws {c : Char} (hc : isPyWs c = true) (x : Str) :
    pyStrip (x ++ [c]) = pyStrip x := by
  unfold pyStrip
  rw [List.dropWhile_append]
  by_cases h : (x.dropWhile isPyWs).isEmpty
  · simp [h, List.dropWhile_cons, hc, List.isEmpty_iff.mp h]
  · simp only [h, if_neg, Bool.false_eq_true, not_false_iff, if_false]
    rw [List.reverse_append, List.reverse_singleton, List.singleton_append,
      List.dropWhile_cons, hc]
    simp

theorem pyStrip_eq_self {x : Str}
    (hh : ∀ c, x.head? = some c → isPyWs c = false)
    (hl : ∀ c, x.getLast? = some c → isPyWs c = false) :
    pyStrip x = x := by
  have h1 : x.dropWhile isPyWs = x := by
    cases x with
    | nil => rfl
    | cons c cs => simp [List.dropWhile_cons, hh c rfl]
  unfold pyStrip
  rw [h1]
  cases hr : x.reverse with
  | nil => simp [List.reverse_eq_nil_iff.mp hr]
  | cons d ds =>
    have hd : x.getLast? = some d := by
      rw [← List.head?_reverse, hr, List.head?_cons]
    rw [List.dropWhile_cons, hl d hd]
    simp [← hr]

theorem runsOK_n_of_head {c : Char} {y : Str} {n : Nat}
    (h0 : runsOK c y 0) (hh : y.head? ≠ some c) (hn : n ≤ 3) :
    runsOK c y n = true := by
  cases y with
  | nil => simpa [runsOK]
  | cons d ds =>
    have hd : ¬ d = c := fun h => hh (by simp [h])
    simp only [runsOK, if_neg hd, Bool.and_eq_true, decide_eq_true_eq] at h0 ⊢
    exact ⟨hn, h0.2⟩

theorem runsOK_append_head {c : Char} {y : Str} (h0 : runsOK c y 0)
    (hh : y.head? ≠ some c) :
    ∀ (x : Str) (n : Nat), runsOK c x n → runsOK c (x ++ y) n = true := by
  intro x
  induction x with
  | nil =>
    intro n hx
    exact runsOK_n_of_head h0 hh (by simpa [runsOK] using hx)
  | cons d ds ih =>
    intro n hx
    by_cases hd : d = c
    · simp only [runsOK, if_pos hd] at hx
      rw [List.cons_append, runsOK, if_pos hd]
      exact ih (n + 1) hx
    · simp only [runsOK, if_neg hd, Bool.and_eq_true, decide_eq_true_eq] at hx
      rw [List.cons_append, runsOK, if_neg hd]
      simp only [Bool.and_eq_true, decide_eq_true_eq]
      exact ⟨hx.1, ih 0 hx.2⟩

theorem runsOK_append_last {c : Char} {y : Str} (h0 : runsOK c y 0) :
    ∀ (x : Str) (n : Nat), runsOK c x n → (x = [] → n = 0) →
      x.getLast? ≠ some c → runsOK c (x ++ y) n = true := by
  intro x
  induction x with
  | nil =>
    intro n _ hn _
    rw [hn rfl]
    simpa using h0
  | cons d ds ih =>
    intro n hx _ hlast
    by_cases hd : d = c
    · subst hd
      have hds : ds ≠ [] := by
        intro h
        subst h
        simp at hlast
      have hlast' : ds.getLast? ≠ some d := by
        cases ds with
        | nil => exact absurd rfl hds
        | cons e es => rwa [List.getLast?_cons_cons] at hlast
      simp only [runsOK, if_pos rfl] at hx
      rw [List.cons_append, runsOK, if_pos rfl]
      exact ih (n + 1) hx (fun h => absurd h hds) hlast'
    · simp only [runsOK, if_neg hd, Bool.and_eq_true, decide_eq_true_eq] at hx
      have hlast' : ds.getLast? ≠ some c := by
        cases ds with
        | nil => simp
        | cons e es => rwa [List.getLast?_cons_cons] at hlast
      rw [List.cons_append, runsOK, if_neg hd]
      simp only [Bool.and_eq_true, decide_eq_true_eq]
      exact ⟨hx.1, ih 0 hx.2 (fun _ => rfl) hlast'⟩

theorem getLast?_replicate_pos {d : Char} {k : Nat} (hk : 1 ≤ k) :
    (List.replicate k d).getLast? = some d := by
  cases k with
  | zero => omega
  | succ m => rw [List.replicate_succ' m d, List.getLast?_concat]

theorem runsOK_replicate_of_ne {c d : Char} (hcd : ¬ d = c) (k : Nat) :
    runsOK c (List.replicate k d) 0 = true := by
  refine runsOK_of_not_mem ?_
  intro hmem
  exact hcd (List.eq_of_mem_replicate hmem).symm

/-- Runs of a character `c` cannot appear nor grow around a block of a
different character `d`: concatenating run-safe pieces around it stays
run-safe. -/
theorem runsOK_around_block {c d : Char} {x y : Str} {k : Nat}
    (hcd : ¬ d = c) (hk : 1 ≤ k) (hx : runsOK c x 0) (hy : runsOK c y 0) :
    runsOK c (x ++ List.replicate k d ++ y) 0 = true := by
  rw [List.append_assoc]
  refine runsOK_append_head ?_ ?_ x 0 hx
  · exact runsOK_append_last hy (List.replicate k d) 0
      (runsOK_replicate_of_ne hcd k) (fun _ => rfl)
      (by rw [getLast?_replicate_pos hk]; simp [hcd])
  · cases k with
    | zero => omega
    | succ m => simp [List.replicate_succ, hcd]

/-! ### Claim C9: runaway-character collapse -/

theorem collapseRuns_replicate_self (c : Char) {k : Nat} (hk : 4 ≤ k) :
    collapseRuns c (List.replicate k c) = List.replicate 3 c := by
  have h : List.replicate k c ++ ([] : Str) = List.replicate k c := by simp
  rw [collapseRuns, ← h, collapseRunsAux_replicate_append c k [] 0]
  simp [collapseRunsAux, emitRun, hk]

/-- C9.  In `_collapse_runaway_lines`, every line of at most 500 characters
is untouched; in a line strictly longer than 500 characters, a maximal run
of four or more repeated `-`, `=` or `_` characters (its surroundings free
of other long runs of these characters) is rewritten to exactly three of
that character; a line of 600 dashes becomes `---` and a line of 10 dashes
is unchanged. -/
theorem c9_runaway_collapse :
    (∀ l : Str, l.length ≤ 500 → runawayLineStep l = l) ∧
    runawayLineStep (List.replicate 600 '-') = List.replicate 3 '-' ∧
    runawayLineStep (List.replicate 10 '-') = List.replicate 10 '-' ∧
    (∀ (c : Char) (a b : Str) (k : Nat), c = '-' ∨ c = '=' ∨ c = '_' →
      4 ≤ k → a.getLast? ≠ some c → b.head? ≠ some c →
      (∀ d, d = '-' ∨ d = '=' ∨ d = '_' → runsOK d a 0 ∧ runsOK d b 0) →
      500 < (a ++ List.replicate k c ++ b).length →
      runawayLineStep (a ++ List.replicate k c ++ b) =
        a ++ List.replicate 3 c ++ b) := by
  refine ⟨?_, ?_, ?_, ?_⟩
  · intro l hl
    rw [runawayLineStep, if_neg (by omega)]
  · rw [runawayLineStep, if_pos (by rw [List.length_replicate]; omega),
      collapseRuns_replicate_self '-' (by omega),
      collapseRuns_of_runsOK (runsOK_replicate_of_ne (by decide) 3),
      collapseRuns_of_runsOK (runsOK_replicate_of_ne (by decide) 3)]
  · rw [runawayLineStep, if_neg (by simp)]
  · intro c a b k hc hk hlast hhead hok hlen
    have hka : runsOK c a 0 := (hok c hc).1
    have hkb : runsOK c b 0 := (hok c hc).2
    have hmain : collapseRuns c (a ++ List.replicate k c ++ b) =
        a ++ List.replicate 3 c ++ b :=
      collapseRuns_long_run hk hlast hhead hka hkb
    have hother : ∀ d, d = '-' ∨ d = '=' ∨ d = '_' → ¬ c = d →
        (collapseRuns d (a ++ List.replicate k c ++ b) =
          a ++ List.replicate k c ++ b) ∧
        (collapseRuns d (a ++ List.replicate 3 c ++ b) =
          a ++ List.replicate 3 c ++ b) := by
      intro d hd hcd
      constructor
      · exact collapseRuns_of_runsOK
          (runsOK_around_block hcd (by omega)
            (hok d hd).1 (hok d hd).2)
      · exact collapseRuns_of_runsOK
          (runsOK_around_block hcd (by omega)
            (hok d hd).1 (hok d hd).2)
    rw [runawayLineStep, if_pos hlen]
    rcases hc with hc | hc | hc
    · subst hc
      rw [hmain, ((hother '=' (by tauto) (by decide)).2),
        ((hother '_' (by tauto) (by decide)).2)]
    · subst hc
      rw [((hother '-' (by tauto) (by decide)).1), hmain,
        ((hother '_' (by tauto) (by decide)).2)]
    · subst hc
      rw [((hother '-' (by tauto) (by decide)).1),
        ((hother '=' (by tauto) (by decide)).1), hmain]

/-- Witness for C9 at concrete inputs: a short line is untouched and a
503-character line with a run of 501 dashes collapses it to three. -/
theorem c9_runaway_collapse_witness :
    runawayLineStep ("abc".data) = "abc".data ∧
    runawayLineStep ("ab".data ++ List.replicate 501 '-' ++ []) =
      "ab".data ++ List.replicate 3 '-' ++ [] := by
  constructor
  · exact c9_runaway_collapse.1 ("abc".data) (by decide)
  · exact c9_runaway_collapse.2.2.2 '-' ("ab".data) [] 501 (by decide)
      (by decide) (by decide) (by decide)
      (fun d hd => by rcases hd with h | h | h <;> subst h <;>
        exact ⟨by decide, by decide⟩)
      (by simp only [List.length_append, List.length_replicate]; norm_num)

theorem pyStrip_eq_self_of_notWs {s : Str} (hh : headNotWs s)
    (hl : lastNotWs s) : pyStrip s = s := by
  refine pyStrip_eq_self ?_ ?_
  · intro c hc
    unfold headNotWs at hh
    rw [hc] at hh
    simpa using hh
  · intro c hc
    unfold lastNotWs at hl
    rw [hc] at hl
    simpa using hl

theorem headNotWs_append {s : Str} (h : s ≠ []) (rest : Str) :
    headNotWs (s ++ rest) = headNotWs s := by
  unfold headNotWs
  rw [List.head?_append]
  cases s with
  | nil => exact absurd rfl h
  | cons c cs => rfl

theorem lastNotWs_append (s : Str) {rest : Str} (h : rest ≠ []) :
    lastNotWs (s ++ rest) = lastNotWs rest := by
  unfold lastNotWs
  rw [List.getLast?_append]
  cases hr : rest.getLast? with
  | some c => rfl
  | none => exact absurd (List.getLast?_eq_none_iff.mp hr) h

theorem not_prefix_of_head_block {p x : Str} (rest : Str)
    (hlen : x.length ≤ p.length) (hx : ¬ x <+: p) : ¬ p <+: (x ++ rest) := by
  intro h
  apply hx
  rcases List.prefix_or_prefix_of_prefix (List.prefix_append x rest) h with
    h2 | h2
  · exact h2
  · have hxp : p = x :=
      List.IsPrefix.eq_of_length h2
        (Nat.le_antisymm (List.IsPrefix.length_le h2) hlen)
    rw [← hxp]

theorem dropWhile_head_not {p : Char → Bool} :
    ∀ {l : Str} {c : Char}, (l.dropWhile p).head? = some c → p c = false := by
  intro l
  induction l with
  | nil => intro c hc; simp [List.dropWhile] at hc
  | cons d ds ih =>
    intro c hc
    rw [List.dropWhile_cons] at hc
    by_cases hd : p d
    · rw [if_pos hd] at hc
      exact ih hc
    · rw [if_neg hd, List.head?_cons, Option.some_inj] at hc
      subst hc
      simpa using hd

theorem lastNotWs_pyStrip (t : Str) : lastNotWs (pyStrip t) = true := by
  unfold lastNotWs pyStrip
  rw [List.getLast?_reverse]
  cases hh : (List.dropWhile isPyWs (List.dropWhile isPyWs t).reverse).head? with
  | none => rfl
  | some d => simp [dropWhile_head_not hh]

theorem headNotWs_pyStrip (t : Str) : headNotWs (pyStrip t) = true := by
  unfold headNotWs pyStrip
  rw [List.head?_reverse]
  cases hz : List.dropWhile isPyWs (List.dropWhile isPyWs t).reverse with
  | nil => rfl
  | cons e es =>
    have hsuff : e :: es <:+ (List.dropWhile isPyWs t).reverse :=
      hz ▸ List.dropWhile_suffix isPyWs
    obtain ⟨u, hu⟩ := hsuff
    cases hg : (e :: es).getLast? with
    | none => simp at hg
    | some d =>
      have h1 : ((List.dropWhile isPyWs t).reverse).getLast? = some d := by
        rw [← hu, List.getLast?_append, hg]
        rfl
      rw [List.getLast?_reverse] at h1
      simp [hg, dropWhile_head_not h1]

theorem pyStrip_idem (t : Str) : pyStrip (pyStrip t) = pyStrip t :=
  pyStrip_eq_self_of_notWs (headNotWs_pyStrip t) (lastNotWs_pyStrip t)

/-- C7 counterexample: a fence opener tagged with a language tag other than
`markdown` does not have its tag removed — `_strip_code_fences` on
```` ```python\nBody\n``` ```` keeps `python` in the output instead of
producing `Body`. -/
theorem c7_fence_tag_counterexample :
    strip_code_fences ("```python\nBody\n```".data) = "python\nBody".data ∧
    strip_code_fences ("```python\nBody\n```".data) ≠ "Body".data := by
  constructor
  · decide
  · decide

/-- Helper for C7: evaluation of `_strip_code_fences` on a text of the
canonical shape `open ++ (mid ++ close)` whose ends are not whitespace,
whose opener decides the two fence tests as given, and whose tail is the
closing fence. -/
theorem strip_code_fences_shape (opn mid : Str)
    (hstrip : pyStrip (opn ++ (mid ++ "```".data)) = opn ++ (mid ++ "```".data))
    (hmd : List.isPrefixOf ("```markdown".data) (opn ++ (mid ++ "```".data)) =
      false)
    (hop : opn = "```".data) :
    strip_code_fences (opn ++ (mid ++ "```".data)) = pyStrip mid := by
  subst hop
  simp only [strip_code_fences]
  rw [hstrip, hmd]
  simp only [Bool.false_eq_true, if_false]
  rw [if_pos (List.isPrefixOf_iff_prefix.mpr (List.prefix_append _ _)),
    List.drop_left' (show ("```".data).length = 3 from by decide),
    if_pos (List.isSuffixOf_iff_suffix.mpr (List.suffix_append _ _)),
    List.take_left' (show mid.length = (mid ++ "```".data).length - 3 from by
      simp [show ("```".data).length = 3 from by decide])]

/-- C7 (amended).  `_strip_code_fences` removes an initial
```` ```markdown ```` opener including its tag, or otherwise just the bare
leading three backticks (so a non-`markdown` language tag stays in the
text); it removes one trailing fence; each removal applies at most once at
each end (witnessed by the double-fence input), and text with no leading or
trailing fence passes through (up to the outer `strip`). -/
theorem c7_fence_stripping :
    (∀ t : Str, ¬ ("```".data <+: pyStrip t) → ¬ ("```".data <:+ pyStrip t) →
      strip_code_fences t = pyStrip t) ∧
    (∀ body : Str,
      strip_code_fences ("```markdown".data ++ '\n' :: body ++ '\n' :: "```".data) =
        pyStrip body) ∧
    (∀ body : Str,
      strip_code_fences ("```".data ++ '\n' :: body ++ '\n' :: "```".data) =
        pyStrip body) ∧
    (∀ body : Str,
      strip_code_fences ("```python".data ++ '\n' :: body ++ '\n' :: "```".data) =
        pyStrip ("python".data ++ '\n' :: body)) ∧
    strip_code_fences ("``````x``````".data) = "```x```".data := by
  have hws : isPyWs '\n' = true := by decide
  refine ⟨?_, ?_, ?_, ?_, by decide⟩
  · intro t hpre hsuf
    have hmd : ¬ (List.isPrefixOf ("```markdown".data) (pyStrip t) = true) := by
      intro h
      exact hpre (List.IsPrefix.trans (by decide)
        (List.isPrefixOf_iff_prefix.mp h))
    have hb : ¬ (List.isPrefixOf ("```".data) (pyStrip t) = true) := by
      intro h
      exact hpre (List.isPrefixOf_iff_prefix.mp h)
    have hs : ¬ (List.isSuffixOf ("```".data) (pyStrip t) = true) := by
      intro h
      exact hsuf (List.isSuffixOf_iff_suffix.mp h)
    simp only [strip_code_fences]
    rw [if_neg hmd, if_neg hb, if_neg hs]
    exact pyStrip_idem t
  · intro body
    have hin : "```markdown".data ++ '\n' :: body ++ '\n' :: "```".data =
        "```markdown".data ++ (('\n' :: (body ++ ['\n'])) ++ "```".data) := by
      simp
    rw [hin]
    have hstrip :
        pyStrip ("```markdown".data ++ (('\n' :: (body ++ ['\n'])) ++ "```".data)) =
        "```markdown".data ++ (('\n' :: (body ++ ['\n'])) ++ "```".data) := by
      refine pyStrip_eq_self_of_notWs ?_ ?_
      · rw [headNotWs_append (s := "```markdown".data) (by decide)]
        decide
      · rw [lastNotWs_append _ (by simp), lastNotWs_append _ (by decide)]
        decide
    simp only [strip_code_fences]
    rw [hstrip]
    rw [if_pos (List.isPrefixOf_iff_prefix.mpr (List.prefix_append _ _)),
      List.drop_left' (show ("```markdown".data).length = 11 from by decide),
      if_pos (List.isSuffixOf_iff_suffix.mpr (List.suffix_append _ _)),
      List.take_left' (show ('\n' :: (body ++ ['\n'])).length =
        (('\n' :: (body ++ ['\n'])) ++ "```".data).length - 3 from by
        simp [show ("```".data).length = 3 from by decide])]
    rw [pyStrip_cons_of_ws hws, pyStrip_append_of_ws hws]
  · intro body
    have hin : "```".data ++ '\n' :: body ++ '\n' :: "```".data =
        "```".data ++ (('\n' :: (body ++ ['\n'])) ++ "```".data) := by
      simp
    rw [hin]
    have hform : "```".data ++ (('\n' :: (body ++ ['\n'])) ++ "```".data) =
        "```\n".data ++ ((body ++ ['\n']) ++ "```".data) := by
      have hq : "```\n".data = "```".data ++ ['\n'] := by decide
      simp [hq]
    have hmd : List.isPrefixOf ("```markdown".data)
        ("```".data ++ (('\n' :: (body ++ ['\n'])) ++ "```".data)) = false := by
      rw [Bool.eq_false_iff]
      intro h
      refine not_prefix_of_head_block (p := "```markdown".data)
        (x := "```\n".data) ((body ++ ['\n']) ++ "```".data) (by decide)
        (by decide) ?_
      rw [← hform]
      exact List.isPrefixOf_iff_prefix.mp h
    have hstrip :
        pyStrip ("```".data ++ (('\n' :: (body ++ ['\n'])) ++ "```".data)) =
        "```".data ++ (('\n' :: (body ++ ['\n'])) ++ "```".data) := by
      refine pyStrip_eq_self_of_notWs ?_ ?_
      · rw [headNotWs_append (s := "```".data) (by decide)]
        decide
      · rw [lastNotWs_append _ (by simp), lastNotWs_append _ (by decide)]
        decide
    rw [strip_code_fences_shape _ _ hstrip hmd rfl,
      pyStrip_cons_of_ws hws, pyStrip_append_of_ws hws]
  · intro body
    have hin : "```python".data ++ '\n' :: body ++ '\n' :: "```".data =
        "```".data ++
          ((("python".data ++ '\n' :: body) ++ ['\n']) ++ "```".data) := by
      have hq : "```python".data = "```".data ++ "python".data := by decide
      simp [hq]
    rw [hin]
    have hform : "```".data ++
          ((("python".data ++ '\n' :: body) ++ ['\n']) ++ "```".data) =
        "```p".data ++
          (("ython".data ++ '\n' :: body ++ ['\n']) ++ "```".data) := by
      have hq : "```p".data ++ "ython".data = "```".data ++ "python".data := by
        decide
      have hq2 : "```".data ++ "python".data ++ ('\n' :: body ++ ['\n'] ++ "```".data) =
          "```p".data ++ "ython".data ++ ('\n' :: body ++ ['\n'] ++ "```".data) := by
        rw [hq]
      simp only [List.append_assoc, List.cons_append, List.nil_append] at hq2 ⊢
      try exact hq2
    have hmd : List.isPrefixOf ("```markdown".data)
        ("```".data ++
          ((("python".data ++ '\n' :: body) ++ ['\n']) ++ "```".data)) = false := by
      rw [Bool.eq_false_iff]
      intro h
      refine not_prefix_of_head_block (p := "```markdown".data)
        (x := "```p".data) (("ython".data ++ '\n' :: body ++ ['\n']) ++ "```".data)
        (by decide) (by decide) ?_
      rw [← hform]
      exact List.isPrefixOf_iff_prefix.mp h
    have hstrip :
        pyStrip ("```".data ++
          ((("python".data ++ '\n' :: body) ++ ['\n']) ++ "```".data)) =
        "```".data ++
          ((("python".data ++ '\n' :: body) ++ ['\n']) ++ "```".data) := by
      refine pyStrip_eq_self_of_notWs ?_ ?_
      · rw [headNotWs_append (s := "```".data) (by decide)]
        decide
      · rw [lastNotWs_append _ (by simp), lastNotWs_append _ (by decide)]
        decide
    rw [strip_code_fences_shape _ _ hstrip hmd rfl, pyStrip_append_of_ws hws]

/-- Witness for C7 at concrete inputs: the no-fence passthrough applied to
a plain string. -/
theorem c7_fence_stripping_witness :
    strip_code_fences ("plain text".data) = pyStrip ("plain text".data) :=
  c7_fence_stripping.1 ("plain text".data) (by decide) (by decide)

/-! ### Claim C8: page-marker extraction -/

/-- C8 counterexample: the first line ` [page:17]` (leading space) does not
match the anchored marker pattern, yet `_extract_page_number` does not
return the text unchanged — it strips the first line before matching, so
the marker is recognized and consumed. -/
theorem c8_marker_counterexample :
    matchMarker (" [page:17]".data) = none ∧
    extract_page_number (" [page:17]\nBody".data) = ("Body".data, some 17) ∧
    extract_page_number (" [page:17]\nBody".data) ≠
      (" [page:17]\nBody".data, none) := by
  refine ⟨by decide, by decide, by decide⟩

/-- C8 (amended).  `_extract_page_number` on `"[page:17]\nBody"` yields
`("Body", 17)`; on `"[page:none]\nBody"` it yields `("Body", none)`; and on
any input whose first line, after stripping surrounding whitespace, does not
match the marker pattern (case-insensitively), the text is returned
unchanged with no page number — the function is total, so it never
raises. -/
theorem c8_marker_extraction :
    extract_page_number ("[page:17]\nBody".data) = ("Body".data, some 17) ∧
    extract_page_number ("[page:none]\nBody".data) = ("Body".data, none) ∧
    (∀ t : Str, matchMarker (pyStrip (t.takeWhile (· != '\n'))) = none →
      extract_page_number t = (t, none)) := by
  refine ⟨by decide, by decide, ?_⟩
  intro t h
  simp only [extract_page_number]
  rw [h]

/-- Witness for C8: a text with no marker line is passed through. -/
theorem c8_marker_extraction_witness :
    extract_page_number ("Hello\nBody".data) = ("Hello\nBody".data, none) :=
  c8_marker_extraction.2.2 ("Hello\nBody".data) (by decide)

/-! ### Claim C10: frame effect of `strip_headers` -/

theorem filter_enumFrom_map_sublist {α : Type} (p : Nat × α → Bool) :
    ∀ (l : List α) (k : Nat),
      (((List.enumFrom k l).filter p).map Prod.snd).Sublist l := by
  intro l
  induction l with
  | nil => intro k; simp
  | cons a l ih =>
    intro k
    rw [List.enumFrom_cons, List.filter_cons]
    by_cases hp : p (k, a)
    · rw [if_pos hp, List.map_cons]
      exact List.Sublist.cons₂ a (ih (k + 1))
    · rw [if_neg hp]
      exact List.Sublist.cons a (ih (k + 1))

theorem removeLines_sublist (lines : List Str) (hdrIdx ftrIdx : List Nat) :
    (removeLines lines hdrIdx ftrIdx).Sublist lines :=
  filter_enumFrom_map_sublist _ lines 0

theorem getD_map_range {α : Type} (f : Nat → α) (d : α) {n j : Nat}
    (h : j < n) : ((List.range n).map f).getD j d = f j := by
  rw [List.getD_eq_getElem?_getD, List.getElem?_map, List.getElem?_range h]
  rfl

/-- C10.  With at least `min_consecutive` pages, every output page of
`strip_headers` is a sublist of the page's lines, rejoined and trimmed of
outer whitespace (so only line removal and outer trimming ever change a
page, never interior line content); with fewer pages the input list is
returned identically, untrimmed. -/
theorem c10_strip_headers_frame (pages : List Str) (minc : Nat) :
    (pages.length < minc → strip_headers pages minc = pages) ∧
    (minc ≤ pages.length → ∀ j, j < pages.length →
      ∃ kept : List Str, kept.Sublist (splitNl (pages.getD j [])) ∧
        (strip_headers pages minc).getD j [] = pyStrip (joinNl kept)) := by
  constructor
  · intro h
    simp only [strip_headers]
    rw [if_pos h]
  · intro h j hj
    refine ⟨removeLines (pageLines pages j)
      (pageRemovals (findRepeatingPairs pages Pos.top minc 2) j)
      (pageRemovals (findRepeatingPairs pages Pos.bottom minc 2) j),
      removeLines_sublist _ _ _, ?_⟩
    simp only [strip_headers]
    rw [if_neg (Nat.not_lt.mpr h), getD_map_range _ _ hj]

/-- Witness for C10: a two-page input with the default threshold 3 is
returned unchanged, and a three-page input has its pages trimmed. -/
theorem c10_strip_headers_frame_witness :
    strip_headers ["a".data, "b".data] 3 = ["a".data, "b".data] ∧
    ∃ kept : List Str, kept.Sublist (splitNl (" x ".data)) ∧
      (strip_headers [" x ".data, "y".data, "z".data] 3).getD 0 [] =
        pyStrip (joinNl kept) := by
  constructor
  · exact (c10_strip_headers_frame ["a".data, "b".data] 3).1 (by decide)
  · exact (c10_strip_headers_frame [" x ".data, "y".data, "z".data] 3).2
      (by decide) 0 (by decide)

/-! ### Claim C5: blank-line collapsing in `parse_structure` -/

/-- C5 counterexample: `"A\n\n\n\nB"` contains a run of four newlines,
i.e. exactly three consecutive blank lines — fewer than the four blank
lines the claim requires — yet `parse_structure` rewrites it to
`"A\n\n\nB"` instead of passing it through unchanged. -/
theorem c5_blank_lines_counterexample :
    (splitNl ("A\n\n\n\nB".data)).count [] = 3 ∧
    parse_structure ("A\n\n\n\nB".data) = "A\n\n\nB".data ∧
    parse_structure ("A\n\n\n\nB".data) ≠ "A\n\n\n\nB".data := by
  refine ⟨by decide, by decide, by decide⟩

/-- C5 (amended).  The final step of `parse_structure` (after the three
heading passes) collapses every maximal run of `4` or more newlines —
that is, `3` or more consecutive blank lines — to exactly `3` newlines
(`2` blank lines), and passes text through unchanged exactly when every
newline run has length at most `3` (at most `2` consecutive blank
lines). -/
theorem c5_blank_lines_collapse :
    (∀ t : Str, parse_structure t =
      collapseRuns '\n' (applyPattern chapLineStep
        (applyPattern secLineStep (applyPattern subLineStep t)))) ∧
    (∀ x : Str, runsOK '\n' x 0 = true → collapseRuns '\n' x = x) ∧
    (∀ (a b : Str) (k : Nat), 4 ≤ k → a.getLast? ≠ some '\n' →
      b.head? ≠ some '\n' → runsOK '\n' a 0 = true → runsOK '\n' b 0 = true →
      collapseRuns '\n' (a ++ List.replicate k '\n' ++ b) =
        a ++ List.replicate 3 '\n' ++ b) := by
  refine ⟨fun t => rfl, fun x hx => collapseRuns_of_runsOK hx, ?_⟩
  intro a b k hk ha hb hoka hokb
  exact collapseRuns_long_run hk ha hb hoka hokb

/-- Witness for C5: a text with a single blank line is unchanged by the
collapse, and four newlines between `A` and `B` become three. -/
theorem c5_blank_lines_collapse_witness :
    collapseRuns '\n' ("A\n\nB".data) = "A\n\nB".data ∧
    collapseRuns '\n' ("A".data ++ List.replicate 4 '\n' ++ "B".data) =
      "A".data ++ List.replicate 3 '\n' ++ "B".data := by
  constructor
  · exact c5_blank_lines_collapse.2.1 ("A\n\nB".data) (by decide)
  · exact c5_blank_lines_collapse.2.2 ("A".data) ("B".data) 4 (by decide)
      (by decide) (by decide) (by decide) (by decide)

/-! ### Line-level lemmas for the structure parser -/

theorem takeWhile_dropWhile_of_all {p : Char → Bool} :
    ∀ (d rest : Str), (∀ x ∈ d, p x = true) →
      (∀ r, rest.head? = some r → p r = false) →
      (d ++ rest).takeWhile p = d ∧ (d ++ rest).dropWhile p = rest := by
  intro d
  induction d with
  | nil =>
    intro rest _ hrest
    cases rest with
    | nil => exact ⟨rfl, rfl⟩
    | cons r rs =>
      rw [List.nil_append, List.takeWhile_cons, List.dropWhile_cons,
        hrest r rfl]
      exact ⟨rfl, rfl⟩
  | cons x d' ih =>
    intro rest hall hrest
    have hx : p x = true := hall x (List.mem_cons_self x d')
    have ih2 := ih rest (fun y hy => hall y (List.mem_cons_of_mem x hy)) hrest
    rw [List.cons_append, List.takeWhile_cons, List.dropWhile_cons, hx]
    simp only [if_true]
    exact ⟨by rw [ih2.1], ih2.2⟩

theorem isSpaceTab_cases {c : Char} (h : isSpaceTab c = true) :
    c = ' ' ∨ c = '\t' := by
  simpa [isSpaceTab] using h

theorem isDigit_false_of_isSpaceTab {c : Char} (h : isSpaceTab c = true) :
    c.isDigit = false := by
  rcases isSpaceTab_cases h with h | h <;> subst h <;> decide

theorem isSpaceTab_false_of_isUpperLat {c : Char} (h : isUpperLat c = true) :
    isSpaceTab c = false := by
  cases hs : isSpaceTab c with
  | false => rfl
  | true =>
    rcases isSpaceTab_cases hs with h2 | h2 <;> subst h2 <;>
      exact absurd h (by decide)

theorem parseNumGroups_one_append {d rest : Str} (hd : d ≠ [])
    (hall : ∀ x ∈ d, x.isDigit = true)
    (hrest : ∀ r, rest.head? = some r → r.isDigit = false) :
    parseNumGroups 1 (d ++ rest) = some (d, rest) := by
  obtain ⟨ht, hw⟩ := takeWhile_dropWhile_of_all d rest hall hrest
  simp only [parseNumGroups, ht, hw]
  rw [if_neg hd]

theorem parseNumGroups_one_spec {l num r : Str}
    (h : parseNumGroups 1 l = some (num, r)) :
    l = num ++ r ∧ num ≠ [] ∧ (∀ x ∈ num, x.isDigit = true) ∧
      num = l.takeWhile Char.isDigit ∧ r = l.dropWhile Char.isDigit := by
  simp only [parseNumGroups] at h
  by_cases he : l.takeWhile Char.isDigit = []
  · rw [if_pos he] at h
    exact absurd h (by simp)
  · rw [if_neg he, Option.some_inj, Prod.mk.injEq] at h
    obtain ⟨h1, h2⟩ := h
    refine ⟨?_, h1 ▸ he, ?_, h1.symm, h2.symm⟩
    · rw [← h1, ← h2, List.takeWhile_append_dropWhile]
    · intro x hx
      exact List.mem_takeWhile_imp (h1 ▸ hx)

theorem parseNumGroups_none_of_head {c : Char} (hc : c.isDigit = false) :
    ∀ (k : Nat) (xs : Str), parseNumGroups k (c :: xs) = none := by
  intro k xs
  match k with
  | 0 => rfl
  | 1 => simp [parseNumGroups, List.takeWhile_cons, hc]
  | n + 2 => simp [parseNumGroups, List.takeWhile_cons, hc]

theorem make_heading_cons (level : Nat) (num title : Str) :
    make_heading (level + 1) num title =
      '#' :: (List.replicate level '#' ++ ' ' :: num ++ ' ' ::
        removeBoldMarks (pyStrip title)) := by
  simp [make_heading, List.replicate_succ]

theorem subLineStep_hash (xs : Str) : subLineStep ('#' :: xs) = '#' :: xs := by
  rw [subLineStep, dottedLineStep, parseNumGroups_none_of_head (by decide)]

theorem secLineStep_hash (xs : Str) : secLineStep ('#' :: xs) = '#' :: xs := by
  rw [secLineStep, dottedLineStep, parseNumGroups_none_of_head (by decide)]

theorem chapLineStep_hash (xs : Str) : chapLineStep ('#' :: xs) = '#' :: xs := by
  rw [chapLineStep, parseNumGroups_none_of_head (by decide)]

theorem subLineStep_cases (l : Str) :
    subLineStep l = l ∨ ∃ xs, subLineStep l = '#' :: xs := by
  rw [subLineStep, dottedLineStep]
  cases hpn : parseNumGroups 3 l with
  | none => exact Or.inl rfl
  | some p =>
    obtain ⟨num, r⟩ := p
    simp only []
    by_cases hr : restOK r
    · exact Or.inr ⟨_, by rw [if_pos hr, make_heading_cons]⟩
    · rw [if_neg hr]
      exact Or.inl rfl

theorem secLineStep_cases (l : Str) :
    secLineStep l = l ∨ ∃ xs, secLineStep l = '#' :: xs := by
  rw [secLineStep, dottedLineStep]
  cases hpn : parseNumGroups 2 l with
  | none => exact Or.inl rfl
  | some p =>
    obtain ⟨num, r⟩ := p
    simp only []
    by_cases hr : restOK r
    · exact Or.inr ⟨_, by rw [if_pos hr, make_heading_cons]⟩
    · rw [if_neg hr]
      exact Or.inl rfl

theorem chapLineStep_cases (l : Str) :
    chapLineStep l = l ∨ ∃ xs, chapLineStep l = '#' :: xs := by
  rw [chapLineStep]
  cases hpn : parseNumGroups 1 l with
  | none => exact Or.inl rfl
  | some p =>
    obtain ⟨num, r⟩ := p
    simp only []
    cases r with
    | nil => exact Or.inl rfl
    | cons c r' =>
      simp only []
      by_cases hst : isSpaceTab c
      · rw [if_pos hst]
        cases hdw : (c :: r').dropWhile isSpaceTab with
        | nil => exact Or.inl rfl
        | cons t ts =>
          simp only []
          by_cases hcond : isUpperLat t ∧ 3 ≤ (t :: ts).length
          · exact Or.inr ⟨_, by rw [if_pos hcond, make_heading_cons]⟩
          · rw [if_neg hcond]
            exact Or.inl rfl
      · rw [if_neg hst]
        exact Or.inl rfl

theorem lineStep_cases (l : Str) :
    lineStep l = l ∨ ∃ xs, lineStep l = '#' :: xs := by
  unfold lineStep
  rcases subLineStep_cases l with h1 | ⟨xs, h1⟩
  · rw [h1]
    rcases secLineStep_cases l with h2 | ⟨xs, h2⟩
    · rw [h2]
      exact chapLineStep_cases l
    · rw [h2, chapLineStep_hash]
      exact Or.inr ⟨xs, rfl⟩
  · rw [h1, secLineStep_hash, chapLineStep_hash]
    exact Or.inr ⟨xs, rfl⟩

theorem lineStep_hash (xs : Str) : lineStep ('#' :: xs) = '#' :: xs := by
  rw [lineStep, subLineStep_hash, secLineStep_hash, chapLineStep_hash]

theorem lineStep_idem (l : Str) : lineStep (lineStep l) = lineStep l := by
  rcases lineStep_cases l with h | ⟨xs, h⟩
  · rw [h, h]
  · rw [h, lineStep_hash]

theorem lineStep_nil : lineStep [] = [] := by
  rfl

/-! ### Claim C4: heading precedence -/

/-- C4.  `parse_structure "4.1.1 Title"` yields exactly the single H4
heading line `#### 4.1.1 Title`; in general, any line accepted by the
subsection pattern is rewritten to an H4 heading that the later section and
chapter passes leave untouched (the inserted `####` breaks their
leading-digit anchor), so no `###` or `##` heading is additionally produced
from that line. -/
theorem c4_heading_precedence :
    parse_structure ("4.1.1 Title".data) = "#### 4.1.1 Title".data ∧
    (∀ l num r : Str, parseNumGroups 3 l = some (num, r) → restOK r = true →
      subLineStep l = make_heading 4 num (group2OfRest r) ∧
      secLineStep (subLineStep l) = subLineStep l ∧
      chapLineStep (subLineStep l) = subLineStep l) := by
  refine ⟨by decide, ?_⟩
  intro l num r hpn hr
  have h1 : subLineStep l = make_heading 4 num (group2OfRest r) := by
    rw [subLineStep, dottedLineStep, hpn]
    simp only []
    rw [if_pos hr]
  refine ⟨h1, ?_, ?_⟩
  · rw [h1, make_heading_cons, secLineStep_hash, ← make_heading_cons]
  · rw [h1, make_heading_cons, chapLineStep_hash, ← make_heading_cons]

/-- Witness for C4: the general part applied to the line `4.1.1 Title`. -/
theorem c4_heading_precedence_witness :
    subLineStep ("4.1.1 Title".data) =
      make_heading 4 ("4.1.1".data) (group2OfRest (" Title".data)) ∧
    secLineStep (subLineStep ("4.1.1 Title".data)) =
      subLineStep ("4.1.1 Title".data) ∧
    chapLineStep (subLineStep ("4.1.1 Title".data)) =
      subLineStep ("4.1.1 Title".data) :=
  c4_heading_precedence.2 ("4.1.1 Title".data) ("4.1.1".data)
    (" Title".data) (by decide) (by decide)

/-- C6 counterexample: `à` (U+00E0, an accented lowercase letter, not an
uppercase one — its code point lies outside U+0041–U+005A) starts the
title, yet `parse_structure` still rewrites `1 àbc` into the chapter
heading `## 1 àbc`, because the character class U+00C0–U+024F of the
chapter pattern also contains the accented lowercase letters. -/
theorem c6_chapter_counterexample :
    parse_structure ("1 àbc".data) = "## 1 àbc".data ∧
    'à'.toNat = 0xE0 ∧ ¬ (0x41 ≤ 'à'.toNat ∧ 'à'.toNat ≤ 0x5A) := by
  refine ⟨by decide, by decide, by decide⟩

/-- C6 (amended).  A line is rewritten by the chapter pass exactly when it
is a digit group, then spaces/tabs, then a title of length at least three
whose first character is ASCII uppercase or in U+00C0–U+024F — a block
that also contains accented lowercase letters; a title starting with an
ASCII lowercase letter (U+0061–U+007A) never produces a chapter
heading. -/
theorem c6_chapter_heading :
    (∀ (d w : Str) (c : Char) (t : Str), d ≠ [] →
      (∀ x ∈ d, x.isDigit = true) → w ≠ [] →
      (∀ x ∈ w, isSpaceTab x = true) → isUpperLat c = true → 2 ≤ t.length →
      chapLineStep (d ++ w ++ c :: t) = make_heading 2 d (c :: t) ∧
      chapLineStep (d ++ w ++ c :: t) ≠ d ++ w ++ c :: t) ∧
    (∀ l : Str, chapLineStep l ≠ l → ChapterShape l) ∧
    (∀ (d w : Str) (c : Char) (t : Str), d ≠ [] →
      (∀ x ∈ d, x.isDigit = true) → w ≠ [] →
      (∀ x ∈ w, isSpaceTab x = true) →
      0x61 ≤ c.toNat → c.toNat ≤ 0x7A →
      chapLineStep (d ++ w ++ c :: t) = d ++ w ++ c :: t) := by
  refine ⟨?_, ?_, ?_⟩
  · intro d w c t hd hdall hw hwall hc ht
    obtain ⟨w0, w', hw'⟩ : ∃ w0 w', w = w0 :: w' := by
      cases w with
      | nil => exact absurd rfl hw
      | cons a b => exact ⟨a, b, rfl⟩
    have hassoc : d ++ w ++ c :: t = d ++ (w ++ c :: t) := by
      rw [List.append_assoc]
    have hpn : parseNumGroups 1 (d ++ (w ++ c :: t)) =
        some (d, w ++ c :: t) := by
      refine parseNumGroups_one_append hd hdall ?_
      intro x hx
      rw [hw', List.cons_append, List.head?_cons, Option.some_inj] at hx
      exact isDigit_false_of_isSpaceTab (hx ▸ hwall w0 (hw' ▸ List.mem_cons_self w0 w'))
    have hdw : (w ++ c :: t).dropWhile isSpaceTab = c :: t :=
      (takeWhile_dropWhile_of_all w (c :: t) hwall
        (fun x hx => by
          rw [List.head?_cons, Option.some_inj] at hx
          exact hx ▸ isSpaceTab_false_of_isUpperLat hc)).2
    have hmain : chapLineStep (d ++ w ++ c :: t) = make_heading 2 d (c :: t) := by
      rw [hassoc, chapLineStep, hpn]
      simp only []
      rw [hw', List.cons_append]
      simp only []
      rw [if_pos (hwall w0 (hw' ▸ List.mem_cons_self w0 w')), ← List.cons_append,
        ← hw', hdw]
      simp only []
      rw [if_pos ⟨hc, by simpa using ht⟩]
    refine ⟨hmain, ?_⟩
    rw [hmain]
    intro heq
    obtain ⟨d0, d', hd'⟩ : ∃ d0 d', d = d0 :: d' := by
      cases d with
      | nil => exact absurd rfl hd
      | cons a b => exact ⟨a, b, rfl⟩
    rw [make_heading_cons, hd', List.cons_append, List.cons_append,
      List.cons.injEq] at heq
    have hdig : d0.isDigit = true := hdall d0 (hd' ▸ List.mem_cons_self d0 d')
    rw [← heq.1] at hdig
    exact absurd hdig (by decide)
  · intro l hne
    rw [chapLineStep] at hne
    cases hpn : parseNumGroups 1 l with
    | none => rw [hpn] at hne; exact absurd rfl hne
    | some p =>
      obtain ⟨num, r⟩ := p
      rw [hpn] at hne
      simp only [] at hne
      obtain ⟨hl, hnum, hdigits, _, hrdef⟩ := parseNumGroups_one_spec hpn
      cases hr : r with
      | nil => rw [hr] at hne; exact absurd rfl hne
      | cons c0 r' =>
        rw [hr] at hne
        simp only [] at hne
        by_cases hst : isSpaceTab c0
        · rw [if_pos hst] at hne
          cases hdw : (c0 :: r').dropWhile isSpaceTab with
          | nil => rw [hdw] at hne; exact absurd rfl hne
          | cons t0 ts =>
            rw [hdw] at hne
            simp only [] at hne
            by_cases hcond : isUpperLat t0 ∧ 3 ≤ (t0 :: ts).length
            · refine ⟨num, (c0 :: r').takeWhile isSpaceTab, t0, ts,
                ?_, hnum, hdigits, ?_, ?_, hcond.1, ?_⟩
              · rw [List.append_assoc, ← hdw,
                  List.takeWhile_append_dropWhile, ← hr]
                exact hl
              · rw [List.takeWhile_cons, hst]
                simp
              · intro x hx
                exact List.mem_takeWhile_imp hx
              · have := hcond.2
                simpa using this
            · rw [if_neg hcond] at hne
              exact absurd rfl hne
        · rw [if_neg hst] at hne
          exact absurd rfl hne
  · intro d w c t hd hdall hw hwall hc1 hc2
    obtain ⟨w0, w', hw'⟩ : ∃ w0 w', w = w0 :: w' := by
      cases w with
      | nil => exact absurd rfl hw
      | cons a b => exact ⟨a, b, rfl⟩
    have hassoc : d ++ w ++ c :: t = d ++ (w ++ c :: t) := by
      rw [List.append_assoc]
    have hpn : parseNumGroups 1 (d ++ (w ++ c :: t)) =
        some (d, w ++ c :: t) := by
      refine parseNumGroups_one_append hd hdall ?_
      intro x hx
      rw [hw', List.cons_append, List.head?_cons, Option.some_inj] at hx
      exact isDigit_false_of_isSpaceTab (hx ▸ hwall w0 (hw' ▸ List.mem_cons_self w0 w'))
    have hcst : isSpaceTab c = false := by
      cases hs : isSpaceTab c with
      | false => rfl
      | true =>
        rcases isSpaceTab_cases hs with h2 | h2 <;> subst h2 <;>
          exact absurd hc1 (by decide)
    have hdw : (w ++ c :: t).dropWhile isSpaceTab = c :: t :=
      (takeWhile_dropWhile_of_all w (c :: t) hwall
        (fun x hx => by
          rw [List.head?_cons, Option.some_inj] at hx
          exact hx ▸ hcst)).2
    have hup : isUpperLat c = false := by
      simp only [isUpperLat, decide_eq_false_iff_not]
      omega
    rw [hassoc, chapLineStep, hpn]
    simp only []
    rw [hw', List.cons_append]
    simp only []
    rw [if_pos (hwall w0 (hw' ▸ List.mem_cons_self w0 w')), ← List.cons_append,
      ← hw', hdw]
    simp only []
    rw [if_neg (by rw [hup]; simp)]

/-- Witness for C6: the three parts applied to the concrete lines `3 Xyz`
(rewritten), `## 3 Xyz` implicitly via part two's contrapositive is not
needed, and `3 xyz` (ASCII lowercase, not rewritten). -/
theorem c6_chapter_heading_witness :
    chapLineStep ("3".data ++ " ".data ++ 'X' :: "yz".data) =
      make_heading 2 ("3".data) ('X' :: "yz".data) ∧
    chapLineStep ("3".data ++ " ".data ++ 'x' :: "yz".data) =
      "3".data ++ " ".data ++ 'x' :: "yz".data := by
  constructor
  · exact (c6_chapter_heading.1 ("3".data) (" ".data) 'X' ("yz".data)
      (by decide) (by decide) (by decide) (by decide) (by decide)
      (by decide)).1
  · exact c6_chapter_heading.2.2 ("3".data) (" ".data) 'x' ("yz".data)
      (by decide) (by decide) (by decide) (by decide) (by decide) (by decide)

/-! ### Claim C3: idempotence of `parse_structure`

The proof has three parts: the three heading passes fuse into one per-line
map `lineStep` (the passes preserve newline-freeness of lines); `lineStep`
is idempotent per line and fixes every line it has produced; and the
blank-line collapse only deletes newlines between line boundaries, so each
line of the collapsed text is either empty or a line of the uncollapsed
text, hence still fixed by `lineStep`. -/

theorem mem_removeBoldMarks : ∀ (x : Str) (c : Char),
    c ∈ removeBoldMarks x → c ∈ x
  | [], c, h => by simp [removeBoldMarks] at h
  | [d], c, h => by simpa [removeBoldMarks] using h
  | d1 :: d2 :: rest, c, h => by
    simp only [removeBoldMarks] at h
    by_cases hdd : d1 = '*' ∧ d2 = '*'
    · rw [if_pos hdd] at h
      exact List.mem_cons_of_mem _ (List.mem_cons_of_mem _
        (mem_removeBoldMarks rest c h))
    · rw [if_neg hdd] at h
      rcases List.mem_cons.mp h with h | h
      · exact h ▸ List.mem_cons_self _ _
      · exact List.mem_cons_of_mem _ (mem_removeBoldMarks (d2 :: rest) c h)

theorem mem_pyStrip {x : Str} {c : Char} (h : c ∈ pyStrip x) : c ∈ x := by
  unfold pyStrip at h
  rw [List.mem_reverse] at h
  have h2 := (List.dropWhile_sublist (l := (x.dropWhile isPyWs).reverse)
    (p := isPyWs)).subset h
  rw [List.mem_reverse] at h2
  exact (List.dropWhile_sublist (l := x) (p := isPyWs)).subset h2

theorem not_nl_make_heading {num title : Str} (level : Nat)
    (hn : '\n' ∉ num) (ht : '\n' ∉ title) :
    '\n' ∉ make_heading level num title := by
  unfold make_heading
  intro h
  rcases List.mem_append.mp h with h | h
  · rcases List.mem_append.mp h with h | h
    · have h2 : '\n' = '#' := List.eq_of_mem_replicate h
      exact absurd h2 (by decide)
    · rcases List.mem_cons.mp h with h | h
      · exact absurd h (by decide)
      · exact hn h
  · rcases List.mem_cons.mp h with h | h
    · exact absurd h (by decide)
    · exact ht (mem_pyStrip (mem_removeBoldMarks _ _ h))

theorem parseNumGroups_mem : ∀ (k : Nat) {l num r : Str},
    parseNumGroups k l = some (num, r) →
      (∀ c ∈ num, c.isDigit = true ∨ c = '.') ∧ (∀ c ∈ r, c ∈ l)
  | 0, l, num, r, h => by simp [parseNumGroups] at h
  | 1, l, num, r, h => by
    obtain ⟨_, _, hdig, _, hr⟩ := parseNumGroups_one_spec h
    refine ⟨fun c hc => Or.inl (hdig c hc), fun c hc => ?_⟩
    rw [hr] at hc
    exact (List.dropWhile_sublist (l := l) (p := Char.isDigit)).subset hc
  | n + 2, l, num, r, h => by
    simp only [parseNumGroups] at h
    by_cases hds : l.takeWhile Char.isDigit = []
    · rw [if_pos hds] at h
      simp at h
    · rw [if_neg hds] at h
      split at h
      · rename_i r2 hdrop
        rw [Option.map_eq_some'] at h
        obtain ⟨⟨num', r'⟩, hpn', heq⟩ := h
        rw [Prod.mk.injEq] at heq
        obtain ⟨hnum, hr⟩ := heq
        obtain ⟨ih1, ih2⟩ := parseNumGroups_mem (n + 1) hpn'
        constructor
        · intro c hc
          rw [← hnum] at hc
          rcases List.mem_append.mp hc with hc | hc
          · exact Or.inl (List.mem_takeWhile_imp hc)
          · rcases List.mem_cons.mp hc with hc | hc
            · exact Or.inr hc
            · exact ih1 c hc
        · intro c hc
          rw [← hr] at hc
          have hc2 : c ∈ '.' :: r2 := List.mem_cons_of_mem '.' (ih2 c hc)
          rw [← hdrop] at hc2
          exact (List.dropWhile_sublist (l := l) (p := Char.isDigit)).subset hc2
      · simp at h

theorem not_nl_group2OfRest {l r : Str} (hsub : ∀ c ∈ r, c ∈ l)
    (h : '\n' ∉ l) : '\n' ∉ group2OfRest r := by
  unfold group2OfRest
  intro hmem
  cases hdw : r.dropWhile isSpaceTab with
  | nil =>
    rw [hdw] at hmem
    simp only [] at hmem
    cases hlast : r.getLast? with
    | none => rw [hlast] at hmem; simp at hmem
    | some c =>
      rw [hlast] at hmem
      rw [List.mem_singleton] at hmem
      obtain ⟨hne, hc⟩ := List.mem_getLast?_eq_getLast
        (show c ∈ r.getLast? from by rw [hlast]; rfl)
      exact h (hsub '\n' (hmem ▸ hc ▸ List.getLast_mem hne))
  | cons t0 ts =>
    rw [hdw] at hmem
    simp only [] at hmem
    have : '\n' ∈ r :=
      (List.dropWhile_sublist (l := r) (p := isSpaceTab)).subset
        (hdw ▸ hmem)
    exact h (hsub '\n' this)

theorem not_nl_dottedLineStep {l : Str} (groups level : Nat)
    (h : '\n' ∉ l) : '\n' ∉ dottedLineStep groups level l := by
  unfold dottedLineStep
  cases hpn : parseNumGroups groups l with
  | none => exact h
  | some p =>
    obtain ⟨num, r⟩ := p
    simp only []
    obtain ⟨hnum, hr⟩ := parseNumGroups_mem groups hpn
    by_cases hrr : restOK r
    · rw [if_pos hrr]
      refine not_nl_make_heading level ?_ (not_nl_group2OfRest hr h)
      intro hc
      rcases hnum '\n' hc with hd | hd
      · exact absurd hd (by decide)
      · exact absurd hd (by decide)
    · rw [if_neg hrr]
      exact h

theorem not_nl_subLineStep {l : Str} (h : '\n' ∉ l) :
    '\n' ∉ subLineStep l :=
  not_nl_dottedLineStep 3 4 h

theorem not_nl_secLineStep {l : Str} (h : '\n' ∉ l) :
    '\n' ∉ secLineStep l :=
  not_nl_dottedLineStep 2 3 h

theorem not_nl_chapLineStep {l : Str} (h : '\n' ∉ l) :
    '\n' ∉ chapLineStep l := by
  unfold chapLineStep
  cases hpn : parseNumGroups 1 l with
  | none => exact h
  | some p =>
    obtain ⟨num, r⟩ := p
    simp only []
    obtain ⟨hnum, hr⟩ := parseNumGroups_mem 1 hpn
    cases r with
    | nil => exact h
    | cons c0 r' =>
      simp only []
      by_cases hst : isSpaceTab c0
      · rw [if_pos hst]
        cases hdw : (c0 :: r').dropWhile isSpaceTab with
        | nil => exact h
        | cons t0 ts =>
          simp only []
          by_cases hcond : isUpperLat t0 ∧ 3 ≤ (t0 :: ts).length
          · rw [if_pos hcond]
            refine not_nl_make_heading 2 ?_ ?_
            · intro hc
              rcases hnum '\n' hc with hd | hd
              · exact absurd hd (by decide)
              · exact absurd hd (by decide)
            · intro hc
              have : '\n' ∈ c0 :: r' :=
                (List.dropWhile_sublist (l := c0 :: r')
                  (p := isSpaceTab)).subset (hdw ▸ hc)
              exact h (hr '\n' this)
          · rw [if_neg hcond]
            exact h
      · rw [if_neg hst]
        exact h

theorem not_nl_lineStep {l : Str} (h : '\n' ∉ l) : '\n' ∉ lineStep l :=
  not_nl_chapLineStep (not_nl_secLineStep (not_nl_subLineStep h))

theorem applyPattern_comp (f g : Str → Str)
    (hf : ∀ l, '\n' ∉ l → '\n' ∉ f l) (t : Str) :
    applyPattern g (applyPattern f t) =
      joinNl ((splitNl t).map fun l => g (f l)) := by
  unfold applyPattern
  have h1 : ∀ l ∈ (splitNl t).map f, '\n' ∉ l := by
    intro l' hl'
    obtain ⟨l, hl, rfl⟩ := List.mem_map.mp hl'
    exact hf l (not_nl_of_mem_splitNl hl)
  rw [splitNl_joinNl h1 (by simpa using splitNl_ne_nil t), List.map_map]
  rfl

theorem heading_passes_eq (t : Str) :
    applyPattern chapLineStep (applyPattern secLineStep
      (applyPattern subLineStep t)) =
    joinNl ((splitNl t).map lineStep) := by
  have h1 : applyPattern secLineStep (applyPattern subLineStep t) =
      applyPattern (fun l => secLineStep (subLineStep l)) t :=
    applyPattern_comp subLineStep secLineStep
      (fun l h => not_nl_subLineStep h) t
  rw [h1, applyPattern_comp (fun l => secLineStep (subLineStep l)) chapLineStep
    (fun l h => not_nl_secLineStep (not_nl_subLineStep h)) t]
  rfl

theorem emitRun_zero (c : Char) : emitRun c 0 = [] := by
  simp [emitRun]

theorem colJoin_cons_cons (a b : Str) (bs : List Str) (m : Nat) :
    colJoin (a :: b :: bs) m =
      if a = [] then colJoin (b :: bs) (m + 1)
      else emitRun '\n' m ++ a ++ colJoin (b :: bs) 1 := by
  rw [colJoin]
  exact fun hq => List.noConfusion hq

theorem collapseRunsAux_copy {l : Str} (h : '\n' ∉ l) :
    ∀ rest : Str, collapseRunsAux '\n' (l ++ rest) 0 =
      l ++ collapseRunsAux '\n' rest 0 := by
  induction l with
  | nil => intro rest; rfl
  | cons c l' ih =>
    intro rest
    have hc : ¬ c = '\n' := fun hc => h (hc ▸ List.mem_cons_self c l')
    rw [List.cons_append, collapseRunsAux, if_neg hc, emitRun_zero,
      ih (fun hm => h (List.mem_cons_of_mem c hm)) rest]
    rfl

theorem collapseRunsAux_copy_from {l : Str} (h : '\n' ∉ l) (hne : l ≠ [])
    (rest : Str) (n : Nat) :
    collapseRunsAux '\n' (l ++ rest) n =
      emitRun '\n' n ++ (l ++ collapseRunsAux '\n' rest 0) := by
  cases l with
  | nil => exact absurd rfl hne
  | cons c l' =>
    have hc : ¬ c = '\n' := fun hc => h (hc ▸ List.mem_cons_self c l')
    rw [List.cons_append, collapseRunsAux, if_neg hc,
      collapseRunsAux_copy (fun hm => h (List.mem_cons_of_mem c hm)) rest]
    rfl

theorem collapse_joinNl : ∀ (ls : List Str), (∀ l ∈ ls, '\n' ∉ l) →
    ∀ n : Nat, collapseRunsAux '\n' (joinNl ls) n = colJoin ls n
  | [], _, n => rfl
  | [l], h, n => by
    by_cases hl : l = []
    · subst hl
      rfl
    · rw [joinNl, colJoin, if_neg hl, ← List.append_nil l,
        collapseRunsAux_copy_from (h l (List.mem_cons_self l [])) hl [] n]
      rw [collapseRunsAux, emitRun_zero, List.append_nil]
  | l :: l2 :: ls', h, n => by
    have hrest : ∀ x ∈ l2 :: ls', '\n' ∉ x :=
      fun x hx => h x (List.mem_cons_of_mem l hx)
    by_cases hl : l = []
    · subst hl
      rw [joinNl_cons_of_ne_nil _ (by simp), List.nil_append, collapseRunsAux,
        if_pos rfl, collapse_joinNl (l2 :: ls') hrest (n + 1),
        colJoin_cons_cons, if_pos rfl]
    · rw [joinNl_cons_of_ne_nil _ (by simp),
        collapseRunsAux_copy_from (h l (List.mem_cons_self l _)) hl _ n,
        collapseRunsAux, if_pos rfl,
        collapse_joinNl (l2 :: ls') hrest 1, colJoin_cons_cons, if_neg hl,
        List.append_assoc]

theorem splitNl_replicate_append :
    ∀ (m : Nat) (y : Str), splitNl (List.replicate m '\n' ++ y) =
      List.replicate m [] ++ splitNl y := by
  intro m
  induction m with
  | zero => intro y; simp
  | succ k ih =>
    intro y
    rw [List.replicate_succ, List.cons_append, splitNl, if_pos rfl, ih,
      List.replicate_succ, List.cons_append]

theorem emitRun_nl_head {n : Nat} (hn : 1 ≤ n) :
    ∃ y, emitRun '\n' n = '\n' :: y := by
  by_cases h4 : 4 ≤ n
  · exact ⟨List.replicate 2 '\n', by rw [emitRun, if_pos h4]; rfl⟩
  · obtain ⟨m, rfl⟩ : ∃ m, n = m + 1 := ⟨n - 1, by omega⟩
    exact ⟨List.replicate m '\n',
      by rw [emitRun, if_neg h4, List.replicate_succ]⟩

theorem colJoin_head_nl : ∀ (ls : List Str) (n : Nat), 1 ≤ n →
    ∃ y, colJoin ls n = '\n' :: y := by
  intro ls
  induction ls with
  | nil =>
    intro n hn
    obtain ⟨y, hy⟩ := emitRun_nl_head hn
    exact ⟨y, by rw [colJoin, hy]⟩
  | cons l ls' ih =>
    intro n hn
    cases ls' with
    | nil =>
      by_cases hl : l = []
      · obtain ⟨y, hy⟩ := emitRun_nl_head hn
        exact ⟨y, by rw [colJoin, if_pos hl, hy]⟩
      · obtain ⟨y, hy⟩ := emitRun_nl_head hn
        exact ⟨y ++ l, by rw [colJoin, if_neg hl, hy]; rfl⟩
    | cons l2 ls'' =>
      by_cases hl : l = []
      · obtain ⟨y, hy⟩ := ih (n + 1) (by omega)
        exact ⟨y, by rw [colJoin_cons_cons, if_pos hl, hy]⟩
      · obtain ⟨y, hy⟩ := emitRun_nl_head hn
        exact ⟨(y ++ l) ++ colJoin (l2 :: ls'') 1, by
          rw [colJoin_cons_cons, if_neg hl, hy]; rfl⟩

theorem allFixed_colJoin : ∀ (ls : List Str), (∀ l ∈ ls, '\n' ∉ l) →
    (∀ l ∈ ls, lineStep l = l) → ∀ (n : Nat) (x : Str),
      x ∈ splitNl (colJoin ls n) → lineStep x = x
  | [], _, _, n, x, hx => by
    obtain ⟨m, hm, _⟩ := emitRun_len_le '\n' n
    rw [colJoin, hm, ← List.append_nil (List.replicate m '\n'),
      splitNl_replicate_append] at hx
    rcases List.mem_append.mp hx with hx | hx
    · rw [List.eq_of_mem_replicate hx]
      rfl
    · simp only [splitNl] at hx
      rw [List.mem_singleton] at hx
      rw [hx]
      rfl
  | [l], hnl, hfix, n, x, hx => by
    obtain ⟨m, hm, _⟩ := emitRun_len_le '\n' n
    by_cases hl : l = []
    · subst hl
      rw [colJoin, if_pos rfl, hm, ← List.append_nil (List.replicate m '\n'),
        splitNl_replicate_append] at hx
      rcases List.mem_append.mp hx with hx | hx
      · rw [List.eq_of_mem_replicate hx]
        rfl
      · simp only [splitNl] at hx
        rw [List.mem_singleton] at hx
        rw [hx]
        rfl
    · rw [colJoin, if_neg hl, hm, splitNl_replicate_append,
        splitNl_of_not_nl (hnl l (List.mem_cons_self l []))] at hx
      rcases List.mem_append.mp hx with hx | hx
      · rw [List.eq_of_mem_replicate hx]
        rfl
      · rw [List.mem_singleton] at hx
        rw [hx]
        exact hfix l (List.mem_cons_self l [])
  | l :: l2 :: ls', hnl, hfix, n, x, hx => by
    obtain ⟨m, hm, _⟩ := emitRun_len_le '\n' n
    have hnl2 : ∀ y ∈ l2 :: ls', '\n' ∉ y :=
      fun y hy => hnl y (List.mem_cons_of_mem l hy)
    have hfix2 : ∀ y ∈ l2 :: ls', lineStep y = y :=
      fun y hy => hfix y (List.mem_cons_of_mem l hy)
    by_cases hl : l = []
    · rw [colJoin_cons_cons, if_pos hl] at hx
      exact allFixed_colJoin (l2 :: ls') hnl2 hfix2 (n + 1) x hx
    · obtain ⟨y, hy⟩ := colJoin_head_nl (l2 :: ls') 1 (le_refl 1)
      rw [colJoin_cons_cons, if_neg hl, hm, List.append_assoc,
        splitNl_replicate_append, hy,
        splitNl_append_nl (hnl l (List.mem_cons_self l _))] at hx
      rcases List.mem_append.mp hx with hx | hx
      · rw [List.eq_of_mem_replicate hx]
        rfl
      · rcases List.mem_cons.mp hx with hx | hx
        · rw [hx]
          exact hfix l (List.mem_cons_self l _)
        · have hy2 : x ∈ splitNl (colJoin (l2 :: ls') 1) := by
            rw [hy, splitNl, if_pos rfl]
            exact List.mem_cons_of_mem [] hx
          exact allFixed_colJoin (l2 :: ls') hnl2 hfix2 1 x hy2

/-- C3.  `parse_structure` is idempotent: a second application returns its
input unchanged, because every heading line it produces starts with `#` and
is no longer matched by any of the three patterns, unmatched lines are
unchanged, and the blank-line collapse leaves no collapsible newline
run. -/
theorem c3_parse_structure_idem (t : Str) :
    parse_structure (parse_structure t) = parse_structure t := by
  have hps : ∀ s : Str, parse_structure s =
      collapseRuns '\n' (joinNl ((splitNl s).map lineStep)) := by
    intro s
    rw [parse_structure, heading_passes_eq]
  have hnlu : ∀ l ∈ (splitNl t).map lineStep, '\n' ∉ l := by
    intro l hl
    obtain ⟨l0, h0, rfl⟩ := List.mem_map.mp hl
    exact not_nl_lineStep (not_nl_of_mem_splitNl h0)
  have hlines : splitNl (joinNl ((splitNl t).map lineStep)) =
      (splitNl t).map lineStep :=
    splitNl_joinNl hnlu (by simpa using splitNl_ne_nil t)
  set u := joinNl ((splitNl t).map lineStep) with hu
  have hnl2 : ∀ l ∈ splitNl u, '\n' ∉ l := fun l hl => not_nl_of_mem_splitNl hl
  have hfix : ∀ l ∈ splitNl u, lineStep l = l := by
    rw [hlines]
    intro l hl
    obtain ⟨l0, h0, rfl⟩ := List.mem_map.mp hl
    exact lineStep_idem l0
  have hcu : collapseRuns '\n' u = colJoin (splitNl u) 0 := by
    conv_lhs => rw [collapseRuns, ← joinNl_splitNl u]
    exact collapse_joinNl (splitNl u) hnl2 0
  have hfix2 : ∀ l ∈ splitNl (collapseRuns '\n' u), lineStep l = l := by
    rw [hcu]
    exact fun l hl => allFixed_colJoin (splitNl u) hnl2 hfix 0 l hl
  have hPfix : joinNl ((splitNl (collapseRuns '\n' u)).map lineStep) =
      collapseRuns '\n' u := by
    have hmap : (splitNl (collapseRuns '\n' u)).map lineStep =
        splitNl (collapseRuns '\n' u) := by
      conv_rhs => rw [← List.map_id (splitNl (collapseRuns '\n' u))]
      exact List.map_congr_left hfix2
    rw [hmap, joinNl_splitNl]
  rw [hps (parse_structure t), hps t, ← hu, hPfix, collapseRuns_idem]

theorem mem_closeRun {pages : List Str} {pos : Pos} {off s e j t : Nat} :
    (j, t) ∈ closeRun pages pos off s e ↔
      s ≤ j ∧ j < e ∧ validTgt pages pos off j ∧ t = tgtNat pages pos off j := by
  unfold closeRun
  rw [List.mem_filterMap]
  constructor
  · rintro ⟨j', hj', heq⟩
    rw [List.mem_range'] at hj'
    obtain ⟨d, hd, hj'eq⟩ := hj'
    simp only [] at heq
    split at heq
    · rename_i hvalid
      rw [Option.some_inj, Prod.mk.injEq] at heq
      obtain ⟨rfl, rfl⟩ := heq
      refine ⟨by omega, by omega, ⟨hvalid.1, hvalid.2⟩, rfl⟩
    · exact absurd heq (by simp)
  · rintro ⟨hsj, hje, hvalid, rfl⟩
    refine ⟨j, ?_, ?_⟩
    · rw [List.mem_range']
      exact ⟨j - s, by omega, by omega⟩
    · simp only []
      rw [if_pos ⟨hvalid.1, hvalid.2⟩]
      rfl

theorem goPass_sound (pages : List Str) (pos : Pos) (off minc : Nat) :
    ∀ (fuel i rs : Nat) (rt : Option Str),
      fuel + i = pages.length → rs ≤ i →
      (∀ w, rt = some w →
        ∀ k, rs ≤ k → k < i → probeNorm pages pos off k = some w) →
      ∀ j t, (j, t) ∈ goPass pages pos off minc fuel i rs rt →
        ∃ (s e : Nat) (v : Str), s ≤ j ∧ j < e ∧ e ≤ pages.length ∧
          minc ≤ e - s ∧
          (∀ k, s ≤ k → k < e → probeNorm pages pos off k = some v) ∧
          validTgt pages pos off j ∧ t = tgtNat pages pos off j
  | 0, i, rs, rt, hfi, hrsi, hinv, j, t, hmem => by
    rw [goPass] at hmem
    split at hmem
    · rename_i hcond
      obtain ⟨w, hw⟩ := Option.isSome_iff_exists.mp hcond.1
      obtain ⟨hsj, hje, hvalid, ht⟩ := mem_closeRun.mp hmem
      refine ⟨rs, pages.length, w, hsj, hje, le_refl _, hcond.2, ?_, hvalid, ht⟩
      intro k hk1 hk2
      exact hinv w hw k hk1 (by omega)
    · simp at hmem
  | fuel + 1, i, rs, rt, hfi, hrsi, hinv, j, t, hmem => by
    have hiN : i < pages.length := by omega
    rw [goPass.eq_def] at hmem
    simp only [] at hmem
    cases hpi : probeNorm pages pos off i with
    | none =>
      rw [hpi] at hmem
      cases rt with
      | none =>
        simp only [] at hmem
        exact goPass_sound pages pos off minc fuel (i + 1) rs none
          (by omega) (by omega) (by simp) j t hmem
      | some w =>
        simp only [] at hmem
        rcases List.mem_append.mp hmem with hmem | hmem
        · split at hmem
          · rename_i hlen
            obtain ⟨hsj, hje, hvalid, ht⟩ := mem_closeRun.mp hmem
            exact ⟨rs, i, w, hsj, hje, by omega, hlen,
              fun k hk1 hk2 => hinv w rfl k hk1 hk2, hvalid, ht⟩
          · simp at hmem
        · exact goPass_sound pages pos off minc fuel (i + 1) rs none
            (by omega) (by omega) (by simp) j t hmem
    | some v =>
      rw [hpi] at hmem
      cases rt with
      | none =>
        simp only [] at hmem
        refine goPass_sound pages pos off minc fuel (i + 1) i (some v)
          (by omega) (by omega) ?_ j t hmem
        intro w hw k hk1 hk2
        have hk : k = i := by omega
        rw [hk, hpi, ← hw]
      | some w =>
        simp only [] at hmem
        by_cases hvw : v = w
        · rw [if_pos hvw] at hmem
          refine goPass_sound pages pos off minc fuel (i + 1) rs (some w)
            (by omega) (by omega) ?_ j t hmem
          intro w' hw' k hk1 hk2
          rw [Option.some_inj] at hw'
          subst hw'
          by_cases hk : k < i
          · exact hinv w rfl k hk1 hk
          · have hki : k = i := by omega
            rw [hki, hpi, hvw]
        · rw [if_neg hvw] at hmem
          rcases List.mem_append.mp hmem with hmem | hmem
          · split at hmem
            · rename_i hlen
              obtain ⟨hsj, hje, hvalid, ht⟩ := mem_closeRun.mp hmem
              exact ⟨rs, i, w, hsj, hje, by omega, hlen,
                fun k hk1 hk2 => hinv w rfl k hk1 hk2, hvalid, ht⟩
            · simp at hmem
          · refine goPass_sound pages pos off minc fuel (i + 1) i (some v)
              (by omega) (by omega) ?_ j t hmem
            intro w' hw' k hk1 hk2
            have hk : k = i := by omega
            rw [hk, hpi, ← hw']

theorem goPass_complete (pages : List Str) (pos : Pos) (off minc : Nat) :
    ∀ (fuel i rs : Nat) (rt : Option Str),
      fuel + i = pages.length → rs ≤ i →
      (∀ w, rt = some w →
        ∀ k, rs ≤ k → k < i → probeNorm pages pos off k = some w) →
      ∀ (s e : Nat) (v : Str) (j : Nat),
        (∀ k, s ≤ k → k < e → probeNorm pages pos off k = some v) →
        minc ≤ e - s → s ≤ j → j < e → e ≤ pages.length →
        (i ≤ s ∨ (rs ≤ s ∧ s < i ∧ i ≤ e ∧ rt.isSome)) →
        validTgt pages pos off j →
        (j, tgtNat pages pos off j) ∈ goPass pages pos off minc fuel i rs rt
  | 0, i, rs, rt, hfi, hrsi, hinv, s, e, v, j, hconst, hlen, hsj, hje, heN,
      hpos, hvalid => by
    rcases hpos with hle | ⟨hrs, hsi, hie, hsome⟩
    · omega
    · have he : e = pages.length := by omega
      obtain ⟨w, hw⟩ := Option.isSome_iff_exists.mp hsome
      rw [goPass, if_pos ⟨by rw [hw]; rfl, by omega⟩]
      exact mem_closeRun.mpr ⟨by omega, by omega, hvalid, rfl⟩
  | fuel + 1, i, rs, rt, hfi, hrsi, hinv, s, e, v, j, hconst, hlen, hsj, hje,
      heN, hpos, hvalid => by
    have hiN : i < pages.length := by omega
    have hse : s < e := by omega
    rw [goPass.eq_def]
    simp only []
    rcases hpos with hle | ⟨hrs, hsi, hie, hsome⟩
    · by_cases his : i = s
      · have hpi : probeNorm pages pos off i = some v :=
          hconst i (by omega) (by omega)
        rw [hpi]
        cases rt with
        | none =>
          simp only []
          refine goPass_complete pages pos off minc fuel (i + 1) i (some v)
            (by omega) (by omega) ?_ s e v j hconst hlen hsj hje heN
            (Or.inr ⟨by omega, by omega, by omega, rfl⟩) hvalid
          intro w hw k hk1 hk2
          rw [Option.some_inj] at hw
          have hk : k = i := by omega
          rw [hk, hpi, hw]
        | some w =>
          simp only []
          by_cases hvw : v = w
          · rw [if_pos hvw]
            refine goPass_complete pages pos off minc fuel (i + 1) rs (some w)
              (by omega) (by omega) ?_ s e v j hconst hlen hsj hje heN
              (Or.inr ⟨by omega, by omega, by omega, rfl⟩) hvalid
            intro w' hw' k hk1 hk2
            rw [Option.some_inj] at hw'
            subst hw'
            by_cases hk : k < i
            · exact hinv w rfl k hk1 hk
            · have hki : k = i := by omega
              rw [hki, hpi, hvw]
          · rw [if_neg hvw]
            refine List.mem_append_right _ ?_
            refine goPass_complete pages pos off minc fuel (i + 1) i (some v)
              (by omega) (by omega) ?_ s e v j hconst hlen hsj hje heN
              (Or.inr ⟨by omega, by omega, by omega, rfl⟩) hvalid
            intro w' hw' k hk1 hk2
            rw [Option.some_inj] at hw'
            have hk : k = i := by omega
            rw [hk, hpi, hw']
      · have his2 : i < s := by omega
        cases hpi : probeNorm pages pos off i with
        | none =>
          cases rt with
          | none =>
            simp only []
            exact goPass_complete pages pos off minc fuel (i + 1) rs none
              (by omega) (by omega) (by simp) s e v j hconst hlen hsj hje heN
              (Or.inl (by omega)) hvalid
          | some w =>
            simp only []
            refine List.mem_append_right _ ?_
            exact goPass_complete pages pos off minc fuel (i + 1) rs none
              (by omega) (by omega) (by simp) s e v j hconst hlen hsj hje heN
              (Or.inl (by omega)) hvalid
        | some u =>
          cases rt with
          | none =>
            simp only []
            refine goPass_complete pages pos off minc fuel (i + 1) i (some u)
              (by omega) (by omega) ?_ s e v j hconst hlen hsj hje heN
              (Or.inl (by omega)) hvalid
            intro w hw k hk1 hk2
            rw [Option.some_inj] at hw
            have hk : k = i := by omega
            rw [hk, hpi, hw]
          | some w =>
            simp only []
            by_cases huw : u = w
            · rw [if_pos huw]
              refine goPass_complete pages pos off minc fuel (i + 1) rs (some w)
                (by omega) (by omega) ?_ s e v j hconst hlen hsj hje heN
                (Or.inl (by omega)) hvalid
              intro w' hw' k hk1 hk2
              rw [Option.some_inj] at hw'
              subst hw'
              by_cases hk : k < i
              · exact hinv w rfl k hk1 hk
              · have hki : k = i := by omega
                rw [hki, hpi, huw]
            · rw [if_neg huw]
              refine List.mem_append_right _ ?_
              refine goPass_complete pages pos off minc fuel (i + 1) i (some u)
                (by omega) (by omega) ?_ s e v j hconst hlen hsj hje heN
                (Or.inl (by omega)) hvalid
              intro w' hw' k hk1 hk2
              rw [Option.some_inj] at hw'
              have hk : k = i := by omega
              rw [hk, hpi, hw']
    · obtain ⟨w, hw⟩ := Option.isSome_iff_exists.mp hsome
      subst hw
      have hwv : w = v := by
        have h1 := hinv w rfl s hrs hsi
        have h2 := hconst s (le_refl s) hse
        rw [h1] at h2
        exact Option.some_inj.mp h2
      by_cases hie2 : i < e
      · have hpi : probeNorm pages pos off i = some v :=
          hconst i (by omega) hie2
        rw [hpi]
        simp only []
        rw [if_pos hwv.symm]
        refine goPass_complete pages pos off minc fuel (i + 1) rs (some w)
          (by omega) (by omega) ?_ s e v j hconst hlen hsj hje heN
          (Or.inr ⟨by omega, by omega, by omega, rfl⟩) hvalid
        intro w' hw' k hk1 hk2
        rw [Option.some_inj] at hw'
        subst hw'
        by_cases hk : k < i
        · exact hinv w rfl k hk1 hk
        · have hki : k = i := by omega
          rw [hki, hpi, ← hwv]
      · have hieq : i = e := by omega
        cases hpi : probeNorm pages pos off i with
        | none =>
          simp only []
          rw [if_pos (show minc ≤ i - rs from by omega)]
          refine List.mem_append_left _ ?_
          exact mem_closeRun.mpr ⟨by omega, by omega, hvalid, rfl⟩
        | some u =>
          simp only []
          by_cases huw : u = w
          · rw [if_pos huw]
            refine goPass_complete pages pos off minc fuel (i + 1) rs (some w)
              (by omega) (by omega) ?_ s (e + 1) v j ?_ (by omega) (by omega)
              (by omega) (by omega)
              (Or.inr ⟨by omega, by omega, by omega, rfl⟩) hvalid
            · intro w' hw' k hk1 hk2
              rw [Option.some_inj] at hw'
              subst hw'
              by_cases hk : k < i
              · exact hinv w rfl k hk1 hk
              · have hki : k = i := by omega
                rw [hki, hpi, huw]
            · intro k hk1 hk2
              by_cases hk : k < e
              · exact hconst k hk1 hk
              · have hki : k = i := by omega
                rw [hki, hpi, huw, hwv]
          · rw [if_neg huw]
            rw [if_pos (show minc ≤ i - rs from by omega)]
            refine List.mem_append_left _ ?_
            exact mem_closeRun.mpr ⟨by omega, by omega, hvalid, rfl⟩

theorem passPairs_complete {pages : List Str} {pos : Pos} {off minc : Nat}
    {v : Str} {s e j : Nat}
    (hconst : ∀ k, s ≤ k → k < e → probeNorm pages pos off k = some v)
    (hlen : minc ≤ e - s) (hsj : s ≤ j) (hje : j < e)
    (heN : e ≤ pages.length) (hvalid : validTgt pages pos off j) :
    (j, tgtNat pages pos off j) ∈ passPairs pages pos off minc :=
  goPass_complete pages pos off minc pages.length 0 0 none (by omega)
    (le_refl 0) (by simp) s e v j hconst hlen hsj hje heN
    (Or.inl (Nat.zero_le s)) hvalid

theorem passPairs_sound {pages : List Str} {pos : Pos} {off minc j t : Nat}
    (hmem : (j, t) ∈ passPairs pages pos off minc) :
    ∃ (s e : Nat) (v : Str), s ≤ j ∧ j < e ∧ e ≤ pages.length ∧
      minc ≤ e - s ∧
      (∀ k, s ≤ k → k < e → probeNorm pages pos off k = some v) ∧
      validTgt pages pos off j ∧ t = tgtNat pages pos off j :=
  goPass_sound pages pos off minc pages.length 0 0 none (by omega)
    (le_refl 0) (by simp) j t hmem

theorem mem_pageRemovals {pairs : List (Nat × Nat)} {j t : Nat} :
    t ∈ pageRemovals pairs j ↔ (j, t) ∈ pairs := by
  unfold pageRemovals
  rw [List.mem_filterMap]
  constructor
  · rintro ⟨⟨a, b⟩, hab, heq⟩
    simp only [] at heq
    split at heq
    · rename_i ha
      rw [Option.some_inj] at heq
      rw [ha, heq] at hab
      exact hab
    · exact absurd heq (by simp)
  · intro hjt
    exact ⟨(j, t), hjt, by simp⟩

theorem mem_findRepeatingPairs {pages : List Str} {pos : Pos}
    {minc n j t : Nat} :
    (j, t) ∈ findRepeatingPairs pages pos minc n ↔
      ∃ off, off < n ∧ (j, t) ∈ passPairs pages pos off minc := by
  unfold findRepeatingPairs
  rw [List.mem_flatMap]
  constructor
  · rintro ⟨off, hoff, hmem⟩
    exact ⟨off, List.mem_range.mp hoff, hmem⟩
  · rintro ⟨off, hoff, hmem⟩
    exact ⟨off, List.mem_range.mpr hoff, hmem⟩

theorem mem_removedIndices {pages : List Str} {minc j t : Nat} :
    t ∈ removedIndices pages minc j ↔
      ∃ (pos : Pos) (off : Nat), off < 2 ∧
        (j, t) ∈ passPairs pages pos off minc := by
  unfold removedIndices
  rw [List.mem_append, mem_pageRemovals, mem_pageRemovals,
    mem_findRepeatingPairs, mem_findRepeatingPairs]
  constructor
  · rintro (⟨off, hoff, hmem⟩ | ⟨off, hoff, hmem⟩)
    · exact ⟨Pos.top, off, hoff, hmem⟩
    · exact ⟨Pos.bottom, off, hoff, hmem⟩
  · rintro ⟨pos, off, hoff, hmem⟩
    cases pos with
    | top => exact Or.inl ⟨off, hoff, hmem⟩
    | bottom => exact Or.inr ⟨off, hoff, hmem⟩

/-- C1 counterexample to the second half of the claim as stated: with
`min_consecutive = 3`, the normalized value `x` appears at probe offset 0
from the top across exactly the two consecutive pages 0 and 1 (page 2 has
`y` there), yet `strip_headers` removes that line from pages 0 and 1 — a
qualifying run at the other probe offset (second line from the bottom)
covers the same physical lines. -/
theorem c1_min_run_counterexample :
    probeNorm ["X\nA".data, "X\nB".data, "Y\nX\nC".data] Pos.top 0 0 =
      some ("x".data) ∧
    probeNorm ["X\nA".data, "X\nB".data, "Y\nX\nC".data] Pos.top 0 1 =
      some ("x".data) ∧
    probeNorm ["X\nA".data, "X\nB".data, "Y\nX\nC".data] Pos.top 0 2 ≠
      some ("x".data) ∧
    strip_headers ["X\nA".data, "X\nB".data, "Y\nX\nC".data] 3 =
      ["A".data, "B".data, "Y\nC".data] := by
  refine ⟨by decide, by decide, by decide, by decide⟩

/-- C1 (amended).  Completeness: whenever the normalized probed value at a
probe offset is constant and non-blank across an interval of at least
`min_consecutive` consecutive pages, the probed line index of every page of
the interval is in that page's removal set.  Soundness: every removed line
index arises from such an interval at one of the probe offsets, so a value
repeated across fewer than `min_consecutive` pages at an offset contributes
no removal of its own, and its line survives unless a qualifying run at
another probe offset targets the same line.  The third part ties the
removal sets to the `strip_headers` output. -/
theorem c1_min_run_boundary (pages : List Str) (minc : Nat) :
    (∀ (pos : Pos) (off : Nat) (v : Str) (s e j : Nat), off < 2 →
      (∀ k, s ≤ k → k < e → probeNorm pages pos off k = some v) →
      minc ≤ e - s → e ≤ pages.length → s ≤ j → j < e →
      validTgt pages pos off j →
      tgtNat pages pos off j ∈ removedIndices pages minc j) ∧
    (∀ j t, t ∈ removedIndices pages minc j →
      ∃ (pos : Pos) (off : Nat) (v : Str) (s e : Nat), off < 2 ∧
        s ≤ j ∧ j < e ∧ e ≤ pages.length ∧ minc ≤ e - s ∧
        (∀ k, s ≤ k → k < e → probeNorm pages pos off k = some v) ∧
        validTgt pages pos off j ∧ t = tgtNat pages pos off j) ∧
    (minc ≤ pages.length → ∀ j, j < pages.length →
      (strip_headers pages minc).getD j [] =
        pyStrip (joinNl ((((pageLines pages j).enum).filter
          (fun q => decide (¬ q.1 ∈ removedIndices pages minc j))).map
          Prod.snd))) := by
  refine ⟨?_, ?_, ?_⟩
  · intro pos off v s e j hoff hconst hlen heN hsj hje hvalid
    exact mem_removedIndices.mpr ⟨pos, off, hoff,
      passPairs_complete hconst hlen hsj hje heN hvalid⟩
  · intro j t hmem
    obtain ⟨pos, off, hoff, hpp⟩ := mem_removedIndices.mp hmem
    obtain ⟨s, e, v, h1, h2, h3, h4, h5, h6, h7⟩ := passPairs_sound hpp
    exact ⟨pos, off, v, s, e, hoff, h1, h2, h3, h4, h5, h6, h7⟩
  · intro h j hj
    simp only [strip_headers]
    rw [if_neg (Nat.not_lt.mpr h), getD_map_range _ _ hj]
    unfold removeLines
    rw [List.filter_congr]
    intro q _
    refine decide_eq_decide.mpr ?_
    unfold removedIndices
    rw [List.mem_append]

/-- Witness for C1: three pages sharing the header line `h` with
`min_consecutive = 3`; the completeness part puts the first line of page 1
into its removal set, and the soundness part recovers a qualifying run from
that membership. -/
theorem c1_min_run_boundary_witness :
    tgtNat ["h\na".data, "h\nb".data, "h\nc".data] Pos.top 0 1 ∈
      removedIndices ["h\na".data, "h\nb".data, "h\nc".data] 3 1 :=
  (c1_min_run_boundary ["h\na".data, "h\nb".data, "h\nc".data] 3).1
    Pos.top 0 ("h".data) 0 3 1 (by decide)
    (fun k h1 h2 => by interval_cases k <;> decide)
    (by decide) (by decide) (by decide) (by decide) (by decide)

/-- C2.  A blank (or missing) probed line never participates in a removal
run: any removal recorded by a scanning pass has a non-blank normalized
probed value on its page.  In particular, for the pages
`["X","X","","X","X","X"]` with `min_consecutive = 3`, the line `X` is
removed only from the final three pages and the first two keep it. -/
theorem c2_blank_line_breaker :
    (∀ (pages : List Str) (pos : Pos) (off minc j t : Nat),
      (j, t) ∈ passPairs pages pos off minc →
      probeNorm pages pos off j ≠ none) ∧
    strip_headers ["X".data, "X".data, "".data, "X".data, "X".data,
        "X".data] 3 =
      ["X".data, "X".data, [], [], [], []] := by
  constructor
  · intro pages pos off minc j t hmem
    obtain ⟨s, e, v, hs, he, _, _, hconst, _, _⟩ := passPairs_sound hmem
    rw [hconst j hs he]
    simp
  · decide

/-- Witness for C2: the pass at the top offset 0 records the removal
`(1, 0)` for three identical pages, and its probed value is indeed
non-blank. -/
theorem c2_blank_line_breaker_witness :
    (1, 0) ∈ passPairs ["h".data, "h".data, "h".data] Pos.top 0 3 ∧
    probeNorm ["h".data, "h".data, "h".data] Pos.top 0 1 ≠ none := by
  constructor
  · decide
  · exact c2_blank_line_breaker.1 ["h".data, "h".data, "h".data]
      Pos.top 0 3 1 0 (by decide)

end Inktvis
